import Mathlib

/-
  Verification development for the Finmarket client library.

  The Python source (finmarket/client.py, finmarket/models.py) is embedded
  shallowly:
  * strings are `List Char`;
  * Python exceptions (`ValueError` from `int`, `float`, `datetime`) are
    modelled by `Except Unit`;
  * numeric values produced by `float(...)` are modelled as exact rationals
    (`Rat`): every claim under study compares values parsed from decimal
    literals with the same literals, defaults `0.0`, or signs, on which the
    exact-decimal semantics and IEEE-double semantics agree;
  * `re.findall`/`re.search` with the two concrete patterns used by the code
    (`\x7bdate:new Date\(([^)]+)\)([^\x7d]*)\x7d` and `name:([-\d.]+)`) are
    implemented directly as deterministic scanners: both regexes are
    backtracking-free (a greedy negated class followed by the excluded
    character), so a left-to-right scan with maximal-munch is exactly the
    CPython `re` behaviour on them.  Character classes are modelled over
    ASCII.
-/

deriving instance DecidableEq for Except

namespace Finmarket

/-! ### Character classes -/

/-- ASCII whitespace as removed by Python `str.strip` (on the inputs in
scope, which are ASCII). -/
def isPyWS (c : Char) : Bool :=
  c.toNat = 32 || c.toNat = 9 || c.toNat = 10 || c.toNat = 13 ||
  c.toNat = 11 || c.toNat = 12

/-- ASCII decimal digit, the `\d` of the source regexes. -/
def isDigitC (c : Char) : Bool := 48 ≤ c.toNat && c.toNat ≤ 57

/-- The character class `[-\d.]` used by the field-value regex. -/
def valClass (c : Char) : Bool := c.toNat = 45 || isDigitC c || c.toNat = 46

/-- ASCII letter (used to describe well-formed field keys). -/
def isLetterC (c : Char) : Bool :=
  (65 ≤ c.toNat && c.toNat ≤ 90) || (97 ≤ c.toNat && c.toNat ≤ 122)

/-- Characters that can occur in a successfully `int`-parsed string:
whitespace, sign, digit, or underscore. -/
def intCompClass (c : Char) : Bool :=
  isPyWS c || c.toNat = 43 || c.toNat = 45 || isDigitC c || c.toNat = 95

/-! ### Python `str.strip`, `int(...)`, `float(...)` -/

/-- Python `str.strip()`. -/
def pyStrip (s : List Char) : List Char :=
  ((s.dropWhile isPyWS).reverse.dropWhile isPyWS).reverse

/-- Numeric value of a list of digit characters (most significant first). -/
def digitsVal (ds : List Char) : Nat :=
  ds.foldl (fun a c => 10 * a + (c.toNat - 48)) 0

/-- Tail of Python's integer-literal digit part: after an initial digit,
digits optionally separated by single underscores. -/
def digitRest : List Char → Bool
  | [] => true
  | c :: cs =>
      if c = '_' then
        match cs with
        | [] => false
        | d :: ds => isDigitC d && digitRest ds
      else isDigitC c && digitRest cs

/-- Python's integer-literal digit part: `digit (["_"] digit)*`. -/
def digitPart : List Char → Bool
  | [] => false
  | c :: cs => isDigitC c && digitRest cs

/-- The digits of a digit part, underscores removed. -/
def pureDigits (s : List Char) : List Char := s.filter (fun c => c.toNat ≠ 95)

/-- Python `int(s)` (base 10) on an ASCII string: strip whitespace, optional
sign, then a digit part; `None` models `ValueError`. -/
def pyIntParse (s : List Char) : Option Int :=
  match pyStrip s with
  | [] => none
  | c :: t =>
      if c = '+' then
        (if digitPart t then some (Int.ofNat (digitsVal (pureDigits t))) else none)
      else if c = '-' then
        (if digitPart t then some (-(Int.ofNat (digitsVal (pureDigits t)))) else none)
      else
        (if digitPart (c :: t) then
          some (Int.ofNat (digitsVal (pureDigits (c :: t)))) else none)

/-- The rational value `ip.fp` of an integer digit part and a fractional
digit part: `(ip * 10^|fp| + fp) / 10^|fp|`. -/
def decValue (ip fp : List Char) : Rat :=
  mkRat (digitsVal ip * 10 ^ fp.length + digitsVal fp) (10 ^ fp.length)

/-- Python `float` on an unsigned string drawn from the class `[-\d.]`:
`digits [. digits?]` or `. digits`; anything else (a stray `-`, a second
`.`) is a `ValueError`.  (Exponents/underscores cannot occur in the
regex-matched values this is applied to.) -/
def pyFloatCore (t : List Char) : Option Rat :=
  let ip := t.takeWhile isDigitC
  match t.dropWhile isDigitC with
  | [] => if ip = [] then none else some (decValue ip [])
  | c :: fp =>
      if c = '.' then
        (if fp.all isDigitC && (ip ≠ [] || fp ≠ []) then
          some (decValue ip fp)
        else none)
      else none

/-- Python `float(s)` for strings drawn from `[-\d.]+` (as produced by the
field-value regex): strip, optional sign, unsigned core. -/
def pyFloatParse (s : List Char) : Option Rat :=
  match pyStrip s with
  | [] => none
  | c :: t =>
      if c = '+' then pyFloatCore t
      else if c = '-' then (pyFloatCore t).map (fun q => -q)
      else pyFloatCore (c :: t)

/-- Python `int(q)` on a float: truncation toward zero. -/
def ratTrunc (q : Rat) : Int := q.num.tdiv (q.den : Int)

/-! ### `datetime.datetime` -/

/-- The fields of a Python `datetime` as constructed by the parser. -/
structure PyDatetime where
  year : Int
  month : Int
  day : Int
  hour : Int
  minute : Int
  second : Int
deriving DecidableEq, Repr

/-- Gregorian leap-year test (as in `calendar`/`datetime`). -/
def isLeap (y : Int) : Bool := (y % 4 == 0 && y % 100 != 0) || (y % 400 == 0)

/-- Days in a month of the proleptic Gregorian calendar. -/
def daysInMonth (y m : Int) : Int :=
  if m = 2 then (if isLeap y then 29 else 28)
  else if m = 4 || m = 6 || m = 9 || m = 11 then 30
  else 31

/-- `datetime.datetime(y, mo, d, h, mi, s)`: `none` models the `ValueError`
raised on out-of-range components. -/
def mkPyDatetime (y mo d h mi s : Int) : Option PyDatetime :=
  if 1 ≤ y ∧ y ≤ 9999 ∧ 1 ≤ mo ∧ mo ≤ 12 ∧ 1 ≤ d ∧ d ≤ daysInMonth y mo ∧
     0 ≤ h ∧ h ≤ 23 ∧ 0 ≤ mi ∧ mi ≤ 59 ∧ 0 ≤ s ∧ s ≤ 59 then
    some ⟨y, mo, d, h, mi, s⟩
  else none

/-! ### Data model (`models.py`) -/

/-- `ChartPoint` of `models.py` (field `open` renamed `open_`: `open` is a
Lean keyword). -/
structure ChartPoint where
  date : PyDatetime
  open_ : Rat
  high : Rat
  low : Rat
  close : Rat
  volume : Int
  pctrel : Rat
  decimals : Int
deriving DecidableEq, Repr

/-! ### The fragment scanner (`re.findall` on the object pattern)

The pattern is `\x7bdate:new Date\(([^)]+)\)([^\x7d]*)\x7d`.  `findall`
scans left to right; at each position the pattern either fails or matches
deterministically (maximal munch on the negated classes), and scanning
resumes after each match. -/

/-- The literal head of the object pattern. -/
def dateLit : List Char := "\x7bdate:new Date(".toList

/-- Match a literal: `dropLit p t = some r` iff `t = p ++ r`. -/
def dropLit : List Char → List Char → Option (List Char)
  | [], t => some t
  | _ :: _, [] => none
  | p :: ps, c :: cs => if p = c then dropLit ps cs else none

/-- Split a list at the first occurrence of `stop`:
maximal-munch for the class `[^stop]*`. -/
def spanNot (stop : Char) : List Char → List Char × List Char
  | [] => ([], [])
  | c :: cs =>
      if c = stop then ([], c :: cs)
      else
        let r := spanNot stop cs
        (c :: r.fst, r.snd)

/-- Attempt the object pattern at the head of `t`; on success return the two
groups (date arguments, rest-of-object) and the remaining text. -/
def tryMatch (t : List Char) : Option ((List Char × List Char) × List Char) :=
  match dropLit dateLit t with
  | none => none
  | some t1 =>
      let s1 := spanNot ')' t1
      if s1.fst = [] then none
      else
        match s1.snd with
        | [] => none
        | c :: t2 =>
            if c = ')' then
              let s2 := spanNot '}' t2
              match s2.snd with
              | [] => none
              | d :: t3 => if d = '}' then some ((s1.fst, s2.fst), t3) else none
            else none

/-- Fuelled scanner (each step consumes at least one character, so fuel
`t.length` is always enough; the fuel only makes the recursion
structural). -/
def findMatchesF : Nat → List Char → List (List Char × List Char)
  | 0, _ => []
  | _, [] => []
  | fuel + 1, c :: cs =>
      match tryMatch (c :: cs) with
      | some (g, rest) => g :: findMatchesF fuel rest
      | none => findMatchesF fuel cs

/-- `re.findall(object_pattern, t)`. -/
def findMatches (t : List Char) : List (List Char × List Char) :=
  findMatchesF t.length t

/-! ### Field extraction (`re.search(rf'{field}:([-\d.]+)', full_obj)`) -/

/-- `re.search` for `name:([-\d.]+)`: leftmost position where the literal
`name ++ ":"` is followed by a nonempty maximal `[-\d.]` run; returns the
run. -/
def searchName (name : List Char) : List Char → Option (List Char)
  | [] => none
  | c :: cs =>
      match dropLit (name ++ [':']) (c :: cs) with
      | some t1 =>
          let run := t1.takeWhile valClass
          if run = [] then searchName name cs else some run
      | none => searchName name cs

/-- Python `date_part.split(',')`. -/
def splitCommas : List Char → List (List Char)
  | [] => [[]]
  | c :: cs =>
      if c = ',' then [] :: splitCommas cs
      else
        match splitCommas cs with
        | g :: gs => (c :: g) :: gs
        | [] => [[c]]

/-- The reconstructed `full_obj` string of the source. -/
def fullObj (datePart rest : List Char) : List Char :=
  dateLit ++ datePart ++ ')' :: rest ++ ['}']

/-- The recognized field names, in the order the source iterates them. -/
def closeName : List Char := "close".toList
def highName : List Char := "high".toList
def lowName : List Char := "low".toList
def openName : List Char := "open".toList
def volumeName : List Char := "volume".toList
def pctrelName : List Char := "pctrel".toList
def decimalsName : List Char := "decimals".toList

def fieldNames : List (List Char) :=
  [closeName, highName, lowName, openName, volumeName, pctrelName, decimalsName]

/-- Extraction + conversion of a float-valued field from `full_obj`:
`.ok none` = absent, `.error` = `float(...)` raised. -/
def getFloatField (name obj : List Char) : Except Unit (Option Rat) :=
  match searchName name obj with
  | Option.none => .ok Option.none
  | Option.some v =>
      match pyFloatParse v with
      | Option.some q => .ok (Option.some q)
      | Option.none => .error ()

/-- Extraction + conversion of an int-valued field (`int(float(value))`). -/
def getIntField (name obj : List Char) : Except Unit (Option Int) :=
  match searchName name obj with
  | Option.none => .ok Option.none
  | Option.some v =>
      match pyFloatParse v with
      | Option.some q => .ok (Option.some (ratTrunc q))
      | Option.none => .error ()

/-- The loop body of `_parse_chart_response` for one regex match:
`.ok none` models `continue` / the final guard failing, `.ok (some p)` an
appended point, `.error` an uncaught exception. -/
def processFragment (g : List Char × List Char) : Except Unit (Option ChartPoint) :=
  match (splitCommas g.fst).mapM pyIntParse with
  | Option.none => .error ()
  | Option.some vals =>
      if 3 ≤ vals.length then
        match mkPyDatetime (vals.getD 0 0) (vals.getD 1 0 + 1) (vals.getD 2 0)
            (vals.getD 3 0) (vals.getD 4 0) (vals.getD 5 0) with
        | Option.none => .error ()
        | Option.some dt =>
            let obj := fullObj g.fst g.snd
            match getFloatField closeName obj, getFloatField highName obj,
                  getFloatField lowName obj, getFloatField openName obj,
                  getIntField volumeName obj, getFloatField pctrelName obj,
                  getIntField decimalsName obj with
            | .ok c?, .ok h?, .ok l?, .ok o?, .ok v?, .ok p?, .ok d? =>
                match c? with
                | Option.none => .ok Option.none
                | Option.some c =>
                    .ok (Option.some
                      { date := dt, open_ := o?.getD 0, high := h?.getD 0,
                        low := l?.getD 0, close := c, volume := v?.getD 0,
                        pctrel := p?.getD 0, decimals := d?.getD 2 })
            | _, _, _, _, _, _, _ => .error ()
      else .ok Option.none

/-- The accumulation loop of `_parse_chart_response` over all matches. -/
def collectPoints : List (List Char × List Char) → Except Unit (List ChartPoint)
  | [] => .ok []
  | g :: gs =>
      match processFragment g with
      | .error e => .error e
      | .ok Option.none => collectPoints gs
      | .ok (Option.some p) =>
          match collectPoints gs with
          | .error e => .error e
          | .ok ps => .ok (p :: ps)

/-- `FinmarketClient._parse_chart_response`. -/
def parseChart (text : List Char) : Except Unit (List ChartPoint) :=
  collectPoints (findMatches text)

/-! ### The search-result mapper (`FinmarketClient.search`, response side)

The network part is out of scope; `searchMap` embeds the loop mapping the
decoded JSON value to `SearchResult`s.  Python values are modelled by
`PyVal`; Python truthiness and the short-circuiting `or` are modelled
explicitly because the source uses `item.get(k1) or item.get(k2) or ...`. -/

inductive PyVal where
  | none : PyVal
  | int (n : Int) : PyVal
  | str (s : List Char) : PyVal
  | list (xs : List PyVal) : PyVal
  | dict (entries : List (List Char × PyVal)) : PyVal

/-- `dict.get(k)` on an association list (Python dict keys are unique; the
first binding wins). -/
def pyGet (d : List (List Char × PyVal)) (k : List Char) : PyVal :=
  match d.find? (fun kv => kv.fst = k) with
  | Option.some kv => kv.snd
  | Option.none => PyVal.none

/-- Python truthiness of the modelled values. -/
def truthy : PyVal → Bool
  | PyVal.none => false
  | PyVal.int n => n != 0
  | PyVal.str s => !s.isEmpty
  | PyVal.list xs => !xs.isEmpty
  | PyVal.dict es => !es.isEmpty

/-- Python `a or b` (value semantics). -/
def pyOr (a b : PyVal) : PyVal := if truthy a then a else b

/-- Python `int(v)`: identity on ints, base-10 parse on strings, and a
raised error on anything else. -/
def pyToInt : PyVal → Except Unit Int
  | PyVal.int n => .ok n
  | PyVal.str s =>
      match pyIntParse s with
      | Option.some n => .ok n
      | Option.none => .error ()
  | _ => .error ()

/-- `SearchResult` of `models.py`.  `name`/`symbol`/`market`/`type` keep the
Python value the `or`-chain produces (the dataclass does not enforce
types). -/
structure SearchResult where
  id_notation : Int
  name : PyVal
  symbol : PyVal
  market : PyVal
  type : PyVal
  raw_data : List (List Char × PyVal)

/-- The body of the `for item in data` loop of `search`. -/
def mkSearchResult (item : List (List Char × PyVal)) : Except Unit SearchResult :=
  match pyToInt (pyOr (pyGet item "ID_NOTATION".toList)
      (pyOr (pyGet item "id_notation".toList)
        (pyOr (pyGet item "id".toList) (PyVal.int 0)))) with
  | .error e => .error e
  | .ok idn =>
      .ok { id_notation := idn
            name := pyOr (pyGet item "NAME".toList)
              (pyOr (pyGet item "name".toList) (PyVal.str []))
            symbol := pyOr (pyGet item "SYMBOL".toList) (pyGet item "symbol".toList)
            market := pyOr (pyGet item "MARKET".toList) (pyGet item "market".toList)
            type := pyOr (pyGet item "TYPE".toList) (pyGet item "type".toList)
            raw_data := item }

/-- One iteration of `for item in data`: `item.get(...)` raises
(`AttributeError`) when `item` is not a dict. -/
def itemResult : PyVal → Except Unit SearchResult
  | PyVal.dict d => mkSearchResult d
  | _ => .error ()

/-- The response-mapping part of `search`: the `isinstance(data, list)`
check plus the mapping loop over the decoded JSON value. -/
def searchMap (data : PyVal) : Except Unit (List SearchResult) :=
  match data with
  | PyVal.list xs => xs.mapM itemResult
  | _ => .ok []

/-! ### Chart request parameters (`get_chart_data`, lines 125-138)

`date.today()` is a parameter (`today`); the network call itself is out of
scope.  The `params` dict is modelled as the association list in insertion
order. -/

inductive ParamVal where
  | pInt (n : Int) : ParamVal
  | pStr (s : List Char) : ParamVal
deriving DecidableEq, Repr

inductive TimeSpan where
  | t1D | t5D | t1M | t3M | t6M | t1Y | t3Y | t5Y | t10Y | tMAX
deriving DecidableEq, Repr

/-- The literal span codes of the `TimeSpan` type alias. -/
def spanCode : TimeSpan → List Char
  | TimeSpan.t1D => "1D".toList
  | TimeSpan.t5D => "5D".toList
  | TimeSpan.t1M => "1M".toList
  | TimeSpan.t3M => "3M".toList
  | TimeSpan.t6M => "6M".toList
  | TimeSpan.t1Y => "1Y".toList
  | TimeSpan.t3Y => "3Y".toList
  | TimeSpan.t5Y => "5Y".toList
  | TimeSpan.t10Y => "10Y".toList
  | TimeSpan.tMAX => "MAX".toList

/-- A `datetime.date` value (as returned by `date.today()`). -/
structure PyDate where
  year : Nat
  month : Nat
  day : Nat
deriving DecidableEq, Repr

/-- Zero-pad a number to two digits (`strftime` `%m`/`%d`). -/
def pad2 (n : Nat) : List Char :=
  if n < 10 then '0' :: (Nat.repr n).toList else (Nat.repr n).toList

/-- `date.strftime("%Y-%m-%d")`. -/
def fmtDate (d : PyDate) : List Char :=
  (Nat.repr d.year).toList ++ '-' :: pad2 d.month ++ '-' :: pad2 d.day

/-- The transport query parameters built by `get_chart_data`. -/
def buildChartParams ( id_notation : Int) (time_span : TimeSpan)
    (quality : List Char) (volume : Bool) (today : PyDate) :
    List (List Char × ParamVal) :=
  [("ID_NOTATION".toList, ParamVal.pInt id_notation),
   ("QUALITY".toList, ParamVal.pStr quality),
   ("VOLUME".toList, ParamVal.pStr (if volume then "true".toList else "false".toList))] ++
  (if time_span = TimeSpan.tMAX then
    [("DATEINI".toList, ParamVal.pStr "1900-01-01".toList),
     ("DATEFIN".toList, ParamVal.pStr (fmtDate today))]
  else
    [("TIME_SPAN".toList, ParamVal.pStr (spanCode time_span))])

/-- Lookup of a query parameter by key. -/
def paramLook (ps : List (List Char × ParamVal)) (k : List Char) : Option ParamVal :=
  (ps.find? (fun kv => kv.fst = k)).map (fun kv => kv.snd)

/-! ### Record descriptions of chart fragments

To quantify over "all valid fragments" the claims need a syntactic family
of inputs.  A `FragSpec` describes one object literal; `fragText` renders
it in exactly the provider's shape, and `inputText` renders a whole
response.  The well-formedness predicates restrict the symbolic parts just
enough for the scanner's behaviour to be characterised. -/

structure FragSpec where
  dateStrs : List (List Char)
  fields : List (List Char × List Char)

/-- Join the date arguments with commas (`Date(Y,M,D,...)`). -/
def joinCommas : List (List Char) → List Char
  | [] => []
  | [s] => s
  | s :: ss => s ++ ',' :: joinCommas ss

/-- Render the field pairs: `,key:value,key:value...`. -/
def fieldsText : List (List Char × List Char) → List Char
  | [] => []
  | kv :: kvs => ',' :: (kv.fst ++ ':' :: kv.snd) ++ fieldsText kvs

/-- Render one object literal. -/
def fragText (r : FragSpec) : List Char :=
  dateLit ++ joinCommas r.dateStrs ++ ')' :: fieldsText r.fields ++ ['}']

/-- Render a whole chart response: `[frag,frag,...]`. -/
def bodyText : List FragSpec → List Char
  | [] => []
  | [r] => fragText r
  | r :: rs => fragText r ++ ',' :: bodyText rs

def inputText (rs : List FragSpec) : List Char := '[' :: bodyText rs ++ [']']

/-- A well-formed key: nonempty, ASCII letters. -/
def goodKey (k : List Char) : Bool := !k.isEmpty && k.all isLetterC

/-- A well-formed field value: nonempty, drawn from `[-\d.]`. -/
def goodVal (v : List Char) : Bool := !v.isEmpty && v.all valClass

/-- A well-formed date argument: `int(...)` accepts it. -/
def goodDateStr (s : List Char) : Bool := (pyIntParse s).isSome

def goodFields (fs : List (List Char × List Char)) : Bool :=
  fs.all (fun kv => goodKey kv.fst && goodVal kv.snd)

def goodFrag (r : FragSpec) : Bool :=
  !r.dateStrs.isEmpty && r.dateStrs.all goodDateStr && goodFields r.fields

/-- `endsIn f k`: `f` is a suffix of `k`. -/
def endsIn (f : List Char) : List Char → Bool
  | [] => f == []
  | c :: cs => f == c :: cs || endsIn f cs

/-- Field lookup as the parser's `re.search` resolves it on a well-formed
fragment: the first pair whose key ends with the searched name. -/
def fieldLook (f : List Char) (fs : List (List Char × List Char)) : Option (List Char) :=
  (fs.find? (fun kv => endsIn f kv.fst)).map (fun kv => kv.snd)

/-- Float-field extraction on a record description. -/
def getFloatR (f : List Char) (fs : List (List Char × List Char)) :
    Except Unit (Option Rat) :=
  match fieldLook f fs with
  | Option.none => .ok Option.none
  | Option.some v =>
      match pyFloatParse v with
      | Option.some q => .ok (Option.some q)
      | Option.none => .error ()

/-- Int-field extraction on a record description. -/
def getIntR (f : List Char) (fs : List (List Char × List Char)) :
    Except Unit (Option Int) :=
  match fieldLook f fs with
  | Option.none => .ok Option.none
  | Option.some v =>
      match pyFloatParse v with
      | Option.some q => .ok (Option.some (ratTrunc q))
      | Option.none => .error ()

/-- The parser's treatment of one record description (to be proved equal to
`processFragment` on the rendered text). -/
def pointOf (r : FragSpec) : Except Unit (Option ChartPoint) :=
  match r.dateStrs.mapM pyIntParse with
  | Option.none => .error ()
  | Option.some vals =>
      if 3 ≤ vals.length then
        match mkPyDatetime (vals.getD 0 0) (vals.getD 1 0 + 1) (vals.getD 2 0)
            (vals.getD 3 0) (vals.getD 4 0) (vals.getD 5 0) with
        | Option.none => .error ()
        | Option.some dt =>
            match getFloatR closeName r.fields, getFloatR highName r.fields,
                  getFloatR lowName r.fields, getFloatR openName r.fields,
                  getIntR volumeName r.fields, getFloatR pctrelName r.fields,
                  getIntR decimalsName r.fields with
            | .ok c?, .ok h?, .ok l?, .ok o?, .ok v?, .ok p?, .ok d? =>
                match c? with
                | Option.none => .ok Option.none
                | Option.some c =>
                    .ok (Option.some
                      { date := dt, open_ := o?.getD 0, high := h?.getD 0,
                        low := l?.getD 0, close := c, volume := v?.getD 0,
                        pctrel := p?.getD 0, decimals := d?.getD 2 })
            | _, _, _, _, _, _, _ => .error ()
      else .ok Option.none

/-- All field values the search can find in an object parse as floats
(the condition under which the field loop cannot raise). -/
def fieldValsParse (obj : List Char) : Bool :=
  fieldNames.all (fun f =>
    match searchName f obj with
    | Option.none => true
    | Option.some v => (pyFloatParse v).isSome)

/-- The spec's candidate-key resolution: try the keys in priority order and
fall back to a default (§4.2 of the spec describes resolution this way;
the code's `or`-chains skip falsy values, which this models with
`truthy`). -/
def resolveKeys (d : List (List Char × PyVal)) : List (List Char) → PyVal → PyVal
  | [], dflt => dflt
  | k :: ks, dflt => if truthy (pyGet d k) then pyGet d k else resolveKeys d ks dflt

/-- The accumulation loop over record descriptions. -/
def chartOfRecs : List FragSpec → Except Unit (List ChartPoint)
  | [] => .ok []
  | r :: rs =>
      match pointOf r with
      | .error e => .error e
      | .ok Option.none => chartOfRecs rs
      | .ok (Option.some p) =>
          match chartOfRecs rs with
          | .error e => .error e
          | .ok ps => .ok (p :: ps)

/-! ## Lemmas: character classes -/

/-- A character in one Boolean class differs from any character outside it. -/
theorem ne_of_class {P : Char → Bool} {c d : Char} (h : P c = true)
    (hd : P d = false) : c ≠ d := by
  intro he; rw [he, hd] at h; exact Bool.noConfusion h

theorem valClass_not_letter {c : Char} (h : valClass c = true) :
    isLetterC c = false := by
  simp only [valClass, isDigitC, Bool.or_eq_true, Bool.and_eq_true,
    decide_eq_true_eq] at h
  simp only [isLetterC, Bool.or_eq_false_iff, Bool.and_eq_false_iff,
    decide_eq_false_iff_not]
  omega

theorem intCompClass_not_letter {c : Char} (h : intCompClass c = true) :
    isLetterC c = false := by
  simp only [intCompClass, isPyWS, isDigitC, Bool.or_eq_true, Bool.and_eq_true,
    decide_eq_true_eq] at h
  simp only [isLetterC, Bool.or_eq_false_iff, Bool.and_eq_false_iff,
    decide_eq_false_iff_not]
  omega

/-! ## Lemmas: `dropLit` and `spanNot` -/

theorem dropLit_self (p t : List Char) : dropLit p (p ++ t) = some t := by
  induction p with
  | nil => rfl
  | cons c cs ih => simp [dropLit, ih]

theorem dropLit_length {p : List Char} :
    ∀ {t r : List Char}, dropLit p t = some r → r.length + p.length = t.length := by
  induction p with
  | nil => intro t r h; simp only [dropLit, Option.some.injEq] at h; simp [h]
  | cons c cs ih =>
      intro t r h
      match t with
      | [] => exact absurd h (by simp [dropLit])
      | d :: t' =>
          simp only [dropLit] at h
          split at h
          · have := ih h; simp [List.length_cons]; omega
          · exact absurd h (by simp)

theorem spanNot_snd_length (stop : Char) :
    ∀ t : List Char, (spanNot stop t).snd.length ≤ t.length := by
  intro t
  induction t with
  | nil => simp [spanNot]
  | cons c cs ih =>
      simp only [spanNot]
      split
      · simp
      · simpa using Nat.le_succ_of_le ih

theorem spanNot_append {stop : Char} {A : List Char}
    (h : ∀ c ∈ A, c ≠ stop) (r : List Char) :
    spanNot stop (A ++ stop :: r) = (A, stop :: r) := by
  induction A with
  | nil => simp [spanNot]
  | cons c cs ih =>
      have hc : c ≠ stop := h c (by simp)
      have ih' := ih (fun d hd => h d (by simp [hd]))
      simp only [List.cons_append, spanNot, if_neg hc, List.append_eq, ih']

theorem takeWhile_append_stop {p : Char → Bool} {v t : List Char}
    (hv : ∀ c ∈ v, p c = true)
    (ht : t = [] ∨ ∃ d t', t = d :: t' ∧ p d = false) :
    (v ++ t).takeWhile p = v := by
  induction v with
  | nil =>
      rcases ht with h | ⟨d, t', rfl, hd⟩
      · simp [h]
      · simp [List.takeWhile_cons, hd]
  | cons c cs ih =>
      have hc : p c = true := hv c (by simp)
      simp only [List.cons_append, List.takeWhile_cons, hc, if_pos]
      rw [ih (fun d hd => hv d (by simp [hd]))]

/-! ## Lemmas: characters of `int`-parseable strings -/

theorem isDigitC_intCompClass {c : Char} (h : isDigitC c = true) :
    intCompClass c = true := by
  simp [intCompClass, h]

theorem digitRest_chars (t : List Char) : digitRest t = true →
    ∀ c ∈ t, intCompClass c = true := by
  induction t using digitRest.induct with
  | case1 => intro _ c hc; exact absurd hc (by simp)
  | case2 => intro h; exact absurd h (by decide)
  | case3 d ds ih =>
      intro h e he
      have h' : (isDigitC d && digitRest ds) = true := h
      simp only [Bool.and_eq_true] at h'
      rcases he with _ | ⟨_, he⟩
      · decide
      · rcases he with _ | ⟨_, he⟩
        · exact isDigitC_intCompClass h'.1
        · exact ih h'.2 e he
  | case4 d ds hne ih =>
      intro h e he
      rw [digitRest.eq_def] at h
      simp only [hne, if_false] at h
      simp only [Bool.and_eq_true] at h
      rcases he with _ | ⟨_, he⟩
      · exact isDigitC_intCompClass h.1
      · exact ih h.2 e he

theorem mem_pyStrip {s : List Char} {c : Char} (hc : c ∈ s) :
    isPyWS c = true ∨ c ∈ pyStrip s := by
  by_cases hw : isPyWS c = true
  · exact Or.inl hw
  · right
    unfold pyStrip
    have h1 : c ∈ s.dropWhile isPyWS := by
      rcases List.mem_append.mp
          ((List.takeWhile_append_dropWhile (p := isPyWS) (l := s)) ▸ hc) with h | h
      · exact absurd (List.mem_takeWhile_imp h) hw
      · exact h
    have h2 : c ∈ (s.dropWhile isPyWS).reverse := List.mem_reverse.mpr h1
    have h3 : c ∈ (s.dropWhile isPyWS).reverse.dropWhile isPyWS := by
      rcases List.mem_append.mp
          ((List.takeWhile_append_dropWhile (p := isPyWS)
            (l := (s.dropWhile isPyWS).reverse)) ▸ h2) with h | h
      · exact absurd (List.mem_takeWhile_imp h) hw
      · exact h
    exact List.mem_reverse.mpr h3

theorem digitPart_chars {t : List Char} (h : digitPart t = true) :
    ∀ c ∈ t, intCompClass c = true := by
  match t with
  | [] => intro c hc; exact absurd hc (by simp)
  | c :: cs =>
      have h' : (isDigitC c && digitRest cs) = true := h
      simp only [Bool.and_eq_true] at h'
      intro d hd
      rcases hd with _ | ⟨_, hd⟩
      · exact isDigitC_intCompClass h'.1
      · exact digitRest_chars cs h'.2 d hd

/-- Every character of a string `int(...)` accepts is whitespace, a sign,
a digit, or an underscore. -/
theorem pyIntParse_chars {s : List Char} {n : Int} (h : pyIntParse s = some n) :
    ∀ c ∈ s, intCompClass c = true := by
  intro c hc
  rcases mem_pyStrip hc with hw | hm
  · simp [intCompClass, hw]
  · rw [pyIntParse] at h
    rcases hs : pyStrip s with _ | ⟨d, t⟩
    · rw [hs] at h hm; exact absurd hm (by simp)
    · rw [hs] at h hm
      have h : (if d = '+' then
          (if digitPart t then some (Int.ofNat (digitsVal (pureDigits t))) else none)
        else if d = '-' then
          (if digitPart t then some (-(Int.ofNat (digitsVal (pureDigits t)))) else none)
        else
          (if digitPart (d :: t) then
            some (Int.ofNat (digitsVal (pureDigits (d :: t)))) else none)) = some n := h
      by_cases hp : d = '+'
      · rw [if_pos hp] at h
        rcases hm with _ | ⟨_, hm⟩
        · subst hp; decide
        · split at h
          · exact digitPart_chars (by assumption) c hm
          · exact absurd h (by simp)
      · rw [if_neg hp] at h
        by_cases hn : d = '-'
        · rw [if_pos hn] at h
          rcases hm with _ | ⟨_, hm⟩
          · subst hn; decide
          · split at h
            · exact digitPart_chars (by assumption) c hm
            · exact absurd h (by simp)
        · rw [if_neg hn] at h
          split at h
          · exact digitPart_chars (by assumption) c hm
          · exact absurd h (by simp)

theorem goodDateStr_chars {s : List Char} (h : goodDateStr s = true) :
    ∀ c ∈ s, intCompClass c = true := by
  rcases Option.isSome_iff_exists.mp h with ⟨n, hn⟩
  exact pyIntParse_chars hn

theorem goodDateStr_ne_nil {s : List Char} (h : goodDateStr s = true) : s ≠ [] := by
  intro he; subst he; exact absurd h (by decide)

/-! ## Lemmas: membership in the rendered fragments -/

theorem mem_joinCommas {ds : List (List Char)} {c : Char} :
    c ∈ joinCommas ds → c = ',' ∨ ∃ s ∈ ds, c ∈ s := by
  induction ds with
  | nil => intro hc; exact absurd hc (by simp [joinCommas])
  | cons s ss ih =>
      intro hc
      match ss with
      | [] => exact Or.inr ⟨s, by simp, hc⟩
      | s2 :: ss' =>
          rcases List.mem_append.mp hc with h | h
          · exact Or.inr ⟨s, by simp, h⟩
          · rcases h with _ | ⟨_, h⟩
            · exact Or.inl rfl
            · rcases ih h with h | ⟨u, hu, hcu⟩
              · exact Or.inl h
              · exact Or.inr ⟨u, by simp [hu], hcu⟩

theorem mem_fieldsText {fs : List (List Char × List Char)} {c : Char} :
    c ∈ fieldsText fs →
    c = ',' ∨ c = ':' ∨ ∃ kv ∈ fs, c ∈ kv.fst ∨ c ∈ kv.snd := by
  induction fs with
  | nil => intro hc; exact absurd hc (by simp [fieldsText])
  | cons kv kvs ih =>
      intro hc
      rcases hc with _ | ⟨_, hc⟩
      · exact Or.inl rfl
      · rcases List.mem_append.mp hc with h | h
        · rcases List.mem_append.mp h with h | h
          · exact Or.inr (Or.inr ⟨kv, by simp, Or.inl h⟩)
          · rcases h with _ | ⟨_, h⟩
            · exact Or.inr (Or.inl rfl)
            · exact Or.inr (Or.inr ⟨kv, by simp, Or.inr h⟩)
        · rcases ih h with h | h | ⟨u, hu, hcu⟩
          · exact Or.inl h
          · exact Or.inr (Or.inl h)
          · exact Or.inr (Or.inr ⟨u, by simp [hu], hcu⟩)

/-- Characters of the date-arguments group of a good fragment. -/
theorem goodFrag_dateChars {r : FragSpec} (hg : goodFrag r = true) :
    ∀ c ∈ joinCommas r.dateStrs, c = ',' ∨ intCompClass c = true := by
  intro c hc
  rcases mem_joinCommas hc with h | ⟨s, hs, hcs⟩
  · exact Or.inl h
  · simp only [goodFrag, Bool.and_eq_true, List.all_eq_true] at hg
    exact Or.inr (goodDateStr_chars (hg.1.2 s hs) c hcs)

/-- Characters of the rendered fields of a good fragment. -/
theorem goodFields_chars {fs : List (List Char × List Char)}
    (hg : goodFields fs = true) :
    ∀ c ∈ fieldsText fs, c = ',' ∨ c = ':' ∨ isLetterC c = true ∨ valClass c = true := by
  intro c hc
  rcases mem_fieldsText hc with h | h | ⟨kv, hkv, hc'⟩
  · exact Or.inl h
  · exact Or.inr (Or.inl h)
  · simp only [goodFields, List.all_eq_true] at hg
    have := hg kv hkv
    simp only [goodKey, goodVal, Bool.and_eq_true, List.all_eq_true] at this
    rcases hc' with h' | h'
    · exact Or.inr (Or.inr (Or.inl (this.1.2 c h')))
    · exact Or.inr (Or.inr (Or.inr (this.2.2 c h')))

/-! ## Lemmas: the object-pattern scanner -/

theorem dateLit_cons : dateLit = '{' :: "date:new Date(".toList := rfl

theorem tryMatch_nil : tryMatch [] = none := rfl

theorem tryMatch_cons_ne {c : Char} (h : c ≠ '{') (cs : List Char) :
    tryMatch (c :: cs) = none := by
  have h' : ('{' : Char) ≠ c := Ne.symm h
  simp [tryMatch, dateLit_cons, dropLit, h']

theorem tryMatch_rest_length {t rest : List Char} {g : List Char × List Char}
    (h : tryMatch t = some (g, rest)) : rest.length < t.length := by
  unfold tryMatch at h
  split at h
  · exact absurd h (by simp)
  · rename_i t1 hd
    have hlen1 := dropLit_length hd
    dsimp only at h
    split at h
    · exact absurd h (by simp)
    · split at h
      · exact absurd h (by simp)
      · rename_i c t2 hsnd
        have h2 : t2.length + 1 = (spanNot ')' t1).snd.length := by rw [hsnd]; rfl
        have h2' : (spanNot ')' t1).snd.length ≤ t1.length := spanNot_snd_length ')' t1
        split at h
        · split at h
          · exact absurd h (by simp)
          · rename_i d t3 hsnd2
            have h3 : t3.length + 1 = (spanNot '}' t2).snd.length := by rw [hsnd2]; rfl
            have h3' : (spanNot '}' t2).snd.length ≤ t2.length := spanNot_snd_length '}' t2
            split at h
            · simp only [Option.some.injEq, Prod.mk.injEq] at h
              have : rest = t3 := h.2.symm
              subst this
              have hd15 : dateLit.length = 15 := by decide
              omega
            · exact absurd h (by simp)
        · exact absurd h (by simp)

/-- `tryMatch` at the head of a rendered good fragment succeeds with exactly
the two groups of the fragment. -/
theorem tryMatch_frag {r : FragSpec} (hg : goodFrag r = true) (rest : List Char) :
    tryMatch (fragText r ++ rest) =
      some ((joinCommas r.dateStrs, fieldsText r.fields), rest) := by
  have hassoc : fragText r ++ rest =
      dateLit ++ (joinCommas r.dateStrs ++ (')' ::
        (fieldsText r.fields ++ ('}' :: rest)))) := by
    simp [fragText, List.append_assoc]
  rw [hassoc]
  unfold tryMatch
  rw [dropLit_self]
  have hjc : ∀ c ∈ joinCommas r.dateStrs, c ≠ ')' := by
    intro c hc
    rcases goodFrag_dateChars hg c hc with h | h
    · subst h; decide
    · exact ne_of_class h (by decide)
  have hspan1 := spanNot_append hjc (fieldsText r.fields ++ ('}' :: rest))
  dsimp only
  rw [hspan1]
  have hne : joinCommas r.dateStrs ≠ [] := by
    simp only [goodFrag, Bool.and_eq_true, List.all_eq_true] at hg
    rcases hds : r.dateStrs with _ | ⟨s, ss⟩
    · rw [hds] at hg; exact absurd hg.1.1 (by simp)
    · match ss with
      | [] =>
          have : goodDateStr s = true := by
            have := hg.1.2 s (by rw [hds]; simp)
            exact this
          simpa [joinCommas] using goodDateStr_ne_nil this
      | s2 :: ss' => simp [joinCommas]
  rw [if_neg hne]
  dsimp only
  rw [if_pos rfl]
  have hft : ∀ c ∈ fieldsText r.fields, c ≠ '}' := by
    intro c hc
    have hgf : goodFields r.fields = true := by
      simp only [goodFrag, Bool.and_eq_true] at hg
      exact hg.2
    rcases goodFields_chars hgf c hc with h | h | h | h
    · subst h; decide
    · subst h; decide
    · exact ne_of_class h (by decide)
    · exact ne_of_class h (by decide)
  have hspan2 := spanNot_append hft rest
  rw [hspan2]
  dsimp only
  rw [if_pos rfl]

/-! ## Lemmas: `findMatches` -/

theorem findMatchesF_nil (f : Nat) : findMatchesF f [] = [] := by
  cases f <;> rfl

theorem findMatchesF_congr :
    ∀ (n : Nat) (t : List Char) (f g : Nat), t.length ≤ n → t.length ≤ f →
      t.length ≤ g → findMatchesF f t = findMatchesF g t := by
  intro n
  induction n with
  | zero =>
      intro t f g ht _ _
      have : t = [] := List.length_eq_zero.mp (Nat.le_zero.mp ht)
      subst this
      rw [findMatchesF_nil, findMatchesF_nil]
  | succ n ih =>
      intro t f g ht hf hg
      match t with
      | [] => rw [findMatchesF_nil, findMatchesF_nil]
      | c :: cs =>
          simp only [List.length_cons] at ht hf hg
          obtain ⟨f', rfl⟩ : ∃ f', f = f' + 1 := ⟨f - 1, by omega⟩
          obtain ⟨g', rfl⟩ : ∃ g', g = g' + 1 := ⟨g - 1, by omega⟩
          rw [findMatchesF, findMatchesF]
          rcases htm : tryMatch (c :: cs) with _ | ⟨gr, rest⟩
          · dsimp only
            exact ih cs f' g' (by omega) (by omega) (by omega)
          · have hlt : rest.length < cs.length + 1 := tryMatch_rest_length htm
            dsimp only
            rw [ih rest f' g' (by omega) (by omega) (by omega)]

theorem findMatches_cons_none {c : Char} {cs : List Char}
    (h : tryMatch (c :: cs) = none) :
    findMatches (c :: cs) = findMatches cs := by
  unfold findMatches
  simp only [List.length_cons]
  rw [findMatchesF, h]

theorem findMatches_cons_some {c : Char} {cs rest : List Char}
    {g : List Char × List Char} (h : tryMatch (c :: cs) = some (g, rest)) :
    findMatches (c :: cs) = g :: findMatches rest := by
  unfold findMatches
  simp only [List.length_cons]
  rw [findMatchesF, h]
  dsimp only
  have hlt : rest.length < cs.length + 1 := tryMatch_rest_length h
  rw [findMatchesF_congr cs.length rest cs.length rest.length (by omega) (by omega)
    (le_refl _)]

theorem findMatches_nil : findMatches [] = [] := rfl

/-- Characters that cannot start a match are skipped. -/
theorem findMatches_skip {J : List Char} (h : ∀ c ∈ J, c ≠ '{') (t : List Char) :
    findMatches (J ++ t) = findMatches t := by
  induction J with
  | nil => rfl
  | cons c cs ih =>
      rw [List.cons_append,
        findMatches_cons_none (tryMatch_cons_ne (h c (by simp)) _),
        ih (fun d hd => h d (by simp [hd]))]

/-- The groups of a good fragment never contain `{`. -/
theorem goodFrag_no_brace {r : FragSpec} (hg : goodFrag r = true) :
    (∀ c ∈ joinCommas r.dateStrs, c ≠ '{') ∧ (∀ c ∈ fieldsText r.fields, c ≠ '{') := by
  constructor
  · intro c hc
    rcases goodFrag_dateChars hg c hc with h | h
    · subst h; decide
    · exact ne_of_class h (by decide)
  · intro c hc
    have hgf : goodFields r.fields = true := by
      simp only [goodFrag, Bool.and_eq_true] at hg
      exact hg.2
    rcases goodFields_chars hgf c hc with h | h | h | h
    · subst h; decide
    · subst h; decide
    · exact ne_of_class h (by decide)
    · exact ne_of_class h (by decide)

/-- The scanner finds exactly the rendered fragments, in order. -/
theorem findMatches_body : ∀ (rs : List FragSpec), (∀ r ∈ rs, goodFrag r = true) →
    findMatches (bodyText rs ++ [']']) =
      rs.map (fun r => (joinCommas r.dateStrs, fieldsText r.fields)) := by
  intro rs
  induction rs with
  | nil =>
      intro _
      rw [show bodyText [] ++ [']'] = [']'] ++ [] by rfl,
        findMatches_skip (by decide), findMatches_nil]
      rfl
  | cons r rs ih =>
      intro hg
      have hgr : goodFrag r = true := hg r (by simp)
      match rs with
      | [] =>
          rw [show bodyText [r] ++ [']'] = fragText r ++ [']'] by rfl]
          rcases hfr : fragText r with _ | ⟨c, cs⟩
          · have : dateLit.length = 15 := by decide
            have : fragText r ≠ [] := by
              simp [fragText, dateLit_cons]
            exact absurd hfr this
          · rw [← hfr]
            have := tryMatch_frag hgr [']']
            rw [hfr] at this ⊢
            rw [List.cons_append] at this ⊢
            rw [findMatches_cons_some this,
              show ([']'] : List Char) = [']'] ++ [] by rfl,
              findMatches_skip (by decide), findMatches_nil]
            rfl
      | r2 :: rs' =>
          rw [show bodyText (r :: r2 :: rs') ++ [']'] =
            fragText r ++ (',' :: (bodyText (r2 :: rs') ++ [']'])) by
              simp [bodyText, List.append_assoc]]
          rcases hfr : fragText r with _ | ⟨c, cs⟩
          · have : fragText r ≠ [] := by simp [fragText, dateLit_cons]
            exact absurd hfr this
          · rw [← hfr]
            have htm := tryMatch_frag hgr (',' :: (bodyText (r2 :: rs') ++ [']']))
            rw [hfr] at htm ⊢
            rw [List.cons_append] at htm ⊢
            rw [findMatches_cons_some htm,
              show (',' :: (bodyText (r2 :: rs') ++ [']'])) =
                [','] ++ (bodyText (r2 :: rs') ++ [']']) by rfl,
              findMatches_skip (by decide),
              ih (fun u hu => hg u (by simp [hu]))]
            rfl

/-- `findMatches` on a full rendered input. -/
theorem findMatches_input {rs : List FragSpec} (hg : ∀ r ∈ rs, goodFrag r = true) :
    findMatches (inputText rs) =
      rs.map (fun r => (joinCommas r.dateStrs, fieldsText r.fields)) := by
  rw [show inputText rs = ['['] ++ (bodyText rs ++ [']']) by simp [inputText],
    findMatches_skip (by decide), findMatches_body rs hg]

/-! ## Lemmas: the field-search scanner -/

theorem isLetterC_not_valClass {c : Char} (h : isLetterC c = true) :
    valClass c = false := by
  simp only [isLetterC, Bool.or_eq_true, Bool.and_eq_true, decide_eq_true_eq] at h
  simp only [valClass, isDigitC, Bool.or_eq_false_iff, Bool.and_eq_false_iff,
    decide_eq_false_iff_not]
  omega

/-- A character outside one class differs from a character inside it. -/
theorem ne_of_not_class {P : Char → Bool} {c d : Char} (h : P c = false)
    (hd : P d = true) : c ≠ d := by
  intro he; rw [he, hd] at h; exact Bool.noConfusion h

theorem searchName_nil (f : List Char) : searchName f [] = none := rfl

theorem searchName_cons_ne {f1 : Char} {fr : List Char} {c : Char} {cs : List Char}
    (h : c ≠ f1) : searchName (f1 :: fr) (c :: cs) = searchName (f1 :: fr) cs := by
  rw [searchName]
  have hd : dropLit ((f1 :: fr) ++ [':']) (c :: cs) = none := by
    rw [List.cons_append, dropLit, if_neg (Ne.symm h)]
  rw [hd]

theorem searchName_skip {f1 : Char} {fr J : List Char}
    (h : ∀ c ∈ J, c ≠ f1) (t : List Char) :
    searchName (f1 :: fr) (J ++ t) = searchName (f1 :: fr) t := by
  induction J with
  | nil => rfl
  | cons c cs ih =>
      rw [List.cons_append, searchName_cons_ne (h c (by simp)),
        ih (fun d hd => h d (by simp [hd]))]

theorem dropLit_letters : ∀ (k f : List Char), f ≠ [] →
    (∀ c ∈ f, isLetterC c = true) → (∀ c ∈ k, isLetterC c = true) → f ≠ k →
    ∀ rest, dropLit (f ++ [':']) (k ++ ':' :: rest) = none := by
  intro k
  induction k with
  | nil =>
      intro f hne hfl _ _ rest
      match f with
      | f1 :: fr =>
          have h1 : f1 ≠ ':' :=
            ne_of_class (hfl f1 (by simp)) (by decide)
          rw [List.nil_append, List.cons_append, dropLit, if_neg h1]
  | cons kc k' ih =>
      intro f hne hfl hkl hfk rest
      match f with
      | f1 :: fr =>
          rw [List.cons_append, List.cons_append, dropLit]
          by_cases h1 : f1 = kc

          · rw [if_pos h1]
            match fr with
            | [] =>
                match k' with
                | [] => exact absurd (by rw [h1]) hfk
                | d :: k'' =>
                    have hd : (':' : Char) ≠ d :=
                      ne_of_not_class (by decide) (hkl d (by simp))
                    rw [List.nil_append, List.cons_append, dropLit, if_neg hd]
            | f2 :: fr' =>
                have hne' : f2 :: fr' ≠ k' := by
                  intro he
                  exact hfk (by rw [h1, he])
                exact ih (f2 :: fr') (by simp)
                  (fun c hc => hfl c (by simp [hc]))
                  (fun c hc => hkl c (by simp [hc])) hne' rest
          · rw [if_neg h1]

/-- On the head of a key-value rendering, the field search hits exactly when
the key ends with the searched name; otherwise it moves past the pair. -/
theorem searchName_over_key : ∀ (k : List Char) (f v t : List Char), f ≠ [] →
    (∀ c ∈ f, isLetterC c = true) → (∀ c ∈ k, isLetterC c = true) →
    (∀ c ∈ v, valClass c = true) → v ≠ [] →
    (∃ d t', t = d :: t' ∧ valClass d = false) →
    searchName f (k ++ ':' :: (v ++ t)) =
      if endsIn f k then some v else searchName f t := by
  intro k
  induction k with
  | nil =>
      intro f v t hne hfl _ hv hvne hstop
      match f with
      | f1 :: fr =>
          have hbeq : endsIn (f1 :: fr) [] = false := by
            simp [endsIn]
          rw [hbeq, if_neg (by simp)]
          rw [List.nil_append,
            searchName_cons_ne (ne_of_not_class (by decide) (hfl f1 (by simp))),
            searchName_skip
              (fun c hc =>
                ne_of_class (hv c hc) (isLetterC_not_valClass (hfl f1 (by simp)))) t]
  | cons kc k' ih =>
      intro f v t hne hfl hkl hv hvne hstop
      match f with
      | f1 :: fr =>
          by_cases hfk : f1 :: fr = kc :: k'
          · have hends : endsIn (f1 :: fr) (kc :: k') = true := by
              rw [endsIn]
              simp [hfk]
            rw [hends, if_pos rfl]
            have hassoc : (kc :: k') ++ ':' :: (v ++ t) =
                ((f1 :: fr) ++ [':']) ++ (v ++ t) := by
              rw [hfk]; simp
            rw [hassoc,
              show ((f1 :: fr) ++ [':']) ++ (v ++ t) =
                f1 :: ((fr ++ [':']) ++ (v ++ t)) by simp,
              searchName]
            have hd : dropLit ((f1 :: fr) ++ [':'])
                (f1 :: ((fr ++ [':']) ++ (v ++ t))) = some (v ++ t) := by
              rw [show f1 :: ((fr ++ [':']) ++ (v ++ t)) =
                ((f1 :: fr) ++ [':']) ++ (v ++ t) by simp]
              exact dropLit_self _ _
            rw [hd]
            dsimp only
            rw [takeWhile_append_stop hv (Or.inr hstop), if_neg hvne]
          · have hbeq : ((f1 :: fr : List Char) == kc :: k') = false :=
              beq_eq_false_iff_ne.mpr hfk
            have hends : endsIn (f1 :: fr) (kc :: k') = endsIn (f1 :: fr) k' := by
              rw [endsIn, hbeq, Bool.false_or]
            rw [hends, List.cons_append, searchName]
            have hdrop := dropLit_letters (kc :: k') (f1 :: fr) (by simp) hfl hkl hfk (v ++ t)
            simp only [List.cons_append] at hdrop ⊢
            rw [hdrop]
            exact ih (f1 :: fr) v t hne hfl
              (fun c hc => hkl c (by simp [hc])) hv hvne hstop

/-- The rendered fields (followed by the closing brace) start with a
character outside the value class. -/
theorem fieldsText_stop (fs : List (List Char × List Char)) :
    ∃ d t', fieldsText fs ++ ['}'] = d :: t' ∧ valClass d = false := by
  match fs with
  | [] => exact ⟨'}', [], rfl, by decide⟩
  | kv :: kvs =>
      refine ⟨',', (kv.fst ++ ':' :: kv.snd) ++ fieldsText kvs ++ ['}'] , ?_, by decide⟩
      simp [fieldsText, List.append_assoc]

/-- The field search on the rendered fields resolves to the first pair whose
key ends with the searched name. -/
theorem searchName_fieldsText {f : List Char} (hne : f ≠ [])
    (hfl : ∀ c ∈ f, isLetterC c = true) :
    ∀ (fs : List (List Char × List Char)), goodFields fs = true →
    searchName f (fieldsText fs ++ ['}']) = fieldLook f fs := by
  intro fs
  induction fs with
  | nil =>
      intro _
      match f with
      | f1 :: fr =>
          rw [show fieldsText [] ++ ['}'] = ['}'] by rfl,
            searchName_cons_ne (ne_of_not_class (by decide) (hfl f1 (by simp))),
            searchName_nil]
          rfl
  | cons kv kvs ih =>
      intro hgf
      have hkv : goodKey kv.fst = true ∧ goodVal kv.snd = true := by
        simp only [goodFields, List.all_eq_true] at hgf
        have := hgf kv (by simp)
        simpa [Bool.and_eq_true] using this
      have hkvs : goodFields kvs = true := by
        simp only [goodFields, List.all_eq_true] at hgf ⊢
        exact fun u hu => hgf u (by simp [hu])
      have hkl : ∀ c ∈ kv.fst, isLetterC c = true := by
        have := hkv.1
        simp only [goodKey, Bool.and_eq_true, List.all_eq_true] at this
        exact this.2
      have hvc : ∀ c ∈ kv.snd, valClass c = true := by
        have := hkv.2
        simp only [goodVal, Bool.and_eq_true, List.all_eq_true] at this
        exact this.2
      have hvne : kv.snd ≠ [] := by
        have := hkv.2
        simp only [goodVal, Bool.and_eq_true] at this
        simpa using this.1
      match f with
      | f1 :: fr =>
          have hassoc : fieldsText (kv :: kvs) ++ ['}'] =
              ',' :: (kv.fst ++ ':' :: (kv.snd ++ (fieldsText kvs ++ ['}']))) := by
            simp [fieldsText, List.append_assoc]
          rw [hassoc,
            searchName_cons_ne (ne_of_not_class (by decide) (hfl f1 (by simp))),
            searchName_over_key kv.fst (f1 :: fr) kv.snd (fieldsText kvs ++ ['}'])
              (by simp) hfl hkl hvc hvne (fieldsText_stop kvs)]
          rw [fieldLook, List.find?]
          rcases hek : endsIn (f1 :: fr) kv.fst with _ | _
          · rw [if_neg (by simp)]
            dsimp only
            exact ih hkvs
          · rw [if_pos rfl]
            rfl

/-- The seven recognized field names are nonempty words of letters. -/
theorem fieldNames_letters :
    ∀ f ∈ fieldNames, f ≠ [] ∧ ∀ c ∈ f, isLetterC c = true := by
  decide

/-- The field search skips the literal date head of a fragment. -/
theorem searchName_dateLit (f : List Char) (hf : f ∈ fieldNames) (t : List Char) :
    searchName f (dateLit ++ t) = searchName f t := by
  fin_cases hf <;> rfl

/-- Field extraction on a whole rendered fragment. -/
theorem searchName_fragText {f : List Char} (hf : f ∈ fieldNames) {r : FragSpec}
    (hg : goodFrag r = true) :
    searchName f (fragText r) = fieldLook f r.fields := by
  obtain ⟨hne, hfl⟩ := fieldNames_letters f hf
  match hfe : f with
  | f1 :: fr =>
      have hassoc : fragText r = dateLit ++ (joinCommas r.dateStrs ++
          (')' :: (fieldsText r.fields ++ ['}']))) := by
        simp [fragText, List.append_assoc]
      have hjc : ∀ c ∈ joinCommas r.dateStrs, c ≠ f1 := by
        intro c hc
        rcases goodFrag_dateChars hg c hc with h | h
        · subst h
          exact ne_of_not_class (by decide) (hfl f1 (by simp))
        · exact ne_of_not_class (intCompClass_not_letter h) (hfl f1 (by simp))
      have hgf : goodFields r.fields = true := by
        simp only [goodFrag, Bool.and_eq_true] at hg
        exact hg.2
      rw [hassoc, searchName_dateLit (f1 :: fr) (hfe ▸ hf),
        searchName_skip hjc,
        searchName_cons_ne (ne_of_not_class (by decide) (hfl f1 (by simp)))]
      exact searchName_fieldsText hne hfl r.fields hgf

/-! ## Lemmas: splitting the date arguments -/

theorem splitCommas_nocomma {s : List Char} (h : ∀ c ∈ s, c ≠ ',') :
    splitCommas s = [s] := by
  induction s with
  | nil => rfl
  | cons c cs ih =>
      rw [splitCommas, if_neg (h c (by simp)), ih (fun d hd => h d (by simp [hd]))]

theorem splitCommas_append {s : List Char} (t : List Char) (h : ∀ c ∈ s, c ≠ ',') :
    splitCommas (s ++ ',' :: t) = s :: splitCommas t := by
  induction s with
  | nil => rw [List.nil_append, splitCommas, if_pos rfl]
  | cons c cs ih =>
      rw [List.cons_append, splitCommas, if_neg (h c (by simp)),
        ih (fun d hd => h d (by simp [hd]))]

theorem splitCommas_join : ∀ (ds : List (List Char)), ds ≠ [] →
    (∀ s ∈ ds, ∀ c ∈ s, c ≠ ',') → splitCommas (joinCommas ds) = ds := by
  intro ds
  induction ds with
  | nil => intro hne _; exact absurd rfl hne
  | cons s ss ih =>
      intro _ h
      match ss with
      | [] =>
          rw [show joinCommas [s] = s by rfl]
          exact splitCommas_nocomma (h s (by simp))
      | s2 :: ss' =>
          rw [show joinCommas (s :: s2 :: ss') = s ++ ',' :: joinCommas (s2 :: ss') by rfl,
            splitCommas_append _ (h s (by simp)),
            ih (by simp) (fun u hu => h u (by simp [hu]))]

/-! ## Lemmas: the parser on rendered records -/

theorem getFloatField_eq {f obj : List Char} {fs : List (List Char × List Char)}
    (h : searchName f obj = fieldLook f fs) :
    getFloatField f obj = getFloatR f fs := by
  rw [getFloatField, getFloatR, h]

theorem getIntField_eq {f obj : List Char} {fs : List (List Char × List Char)}
    (h : searchName f obj = fieldLook f fs) :
    getIntField f obj = getIntR f fs := by
  rw [getIntField, getIntR, h]

/-- The loop body on a rendered good fragment equals the record-level
description `pointOf`. -/
theorem processFragment_enc {r : FragSpec} (hg : goodFrag r = true) :
    processFragment (joinCommas r.dateStrs, fieldsText r.fields) = pointOf r := by
  have hds : ∀ s ∈ r.dateStrs, ∀ c ∈ s, c ≠ ',' := by
    intro s hs c hc
    have hgs : goodDateStr s = true := by
      simp only [goodFrag, Bool.and_eq_true, List.all_eq_true] at hg
      exact hg.1.2 s hs
    exact ne_of_class (goodDateStr_chars hgs c hc) (by decide)
  have hne : r.dateStrs ≠ [] := by
    simp only [goodFrag, Bool.and_eq_true] at hg
    simpa using hg.1.1
  have hsplit : splitCommas (joinCommas r.dateStrs) = r.dateStrs :=
    splitCommas_join r.dateStrs hne hds
  have hobj : fullObj (joinCommas r.dateStrs) (fieldsText r.fields) = fragText r := by
    simp [fullObj, fragText, dateLit, List.append_assoc]
  unfold processFragment pointOf
  dsimp only
  rw [hsplit, hobj,
    getFloatField_eq (searchName_fragText (by decide) hg),
    getFloatField_eq (searchName_fragText (by decide) hg),
    getFloatField_eq (searchName_fragText (by decide) hg),
    getFloatField_eq (searchName_fragText (by decide) hg),
    getIntField_eq (searchName_fragText (by decide) hg),
    getFloatField_eq (searchName_fragText (by decide) hg),
    getIntField_eq (searchName_fragText (by decide) hg)]

/-- The accumulation loop on rendered records equals the record-level loop. -/
theorem collectPoints_enc : ∀ (rs : List FragSpec), (∀ r ∈ rs, goodFrag r = true) →
    collectPoints (rs.map (fun r => (joinCommas r.dateStrs, fieldsText r.fields))) =
      chartOfRecs rs := by
  intro rs
  induction rs with
  | nil => intro _; rfl
  | cons r rs ih =>
      intro h
      rw [List.map_cons, collectPoints, chartOfRecs,
        processFragment_enc (h r (by simp)), ih (fun u hu => h u (by simp [hu]))]

/-- `_parse_chart_response` on a rendered input is the record-level loop. -/
theorem parseChart_input {rs : List FragSpec} (h : ∀ r ∈ rs, goodFrag r = true) :
    parseChart (inputText rs) = chartOfRecs rs := by
  rw [parseChart, findMatches_input h, collectPoints_enc rs h]

/-! ## Lemmas: field lookup and extraction results -/

theorem endsIn_refl (f : List Char) : endsIn f f = true := by
  match f with
  | [] => rfl
  | c :: cs => rw [endsIn]; simp

theorem fieldLook_cons_true {f k v : List Char} {fs : List (List Char × List Char)}
    (h : endsIn f k = true) : fieldLook f ((k, v) :: fs) = some v := by
  rw [fieldLook, List.find?]
  simp only [h]
  rfl

theorem fieldLook_cons_false {f k v : List Char} {fs : List (List Char × List Char)}
    (h : endsIn f k = false) : fieldLook f ((k, v) :: fs) = fieldLook f fs := by
  rw [fieldLook, List.find?]
  simp only [h]
  rfl

/-- Pairs whose keys do not end in the searched name are skipped. -/
theorem fieldLook_skip {f : List Char} :
    ∀ {fs1 : List (List Char × List Char)} (fs2 : List (List Char × List Char)),
    (∀ kv ∈ fs1, endsIn f kv.fst = false) →
    fieldLook f (fs1 ++ fs2) = fieldLook f fs2 := by
  intro fs1
  induction fs1 with
  | nil => intro fs2 _; rfl
  | cons kv kvs ih =>
      intro fs2 h
      rw [List.cons_append, fieldLook_cons_false (h kv (by simp)),
        ih fs2 (fun u hu => h u (by simp [hu]))]

theorem mapM_pyInt_length : ∀ {ss : List (List Char)} {vs : List Int},
    ss.mapM pyIntParse = some vs → vs.length = ss.length := by
  intro ss
  induction ss with
  | nil =>
      intro vs h
      have h' : some ([] : List Int) = some vs := h
      simp only [Option.some.injEq] at h'
      simp [← h']
  | cons s ss ih =>
      intro vs h
      rw [List.mapM_cons] at h
      rcases h1 : pyIntParse s with _ | n <;> rw [h1] at h
      · exact absurd h (by simp)
      · rcases h2 : ss.mapM pyIntParse with _ | ws <;> rw [h2] at h
        · exact absurd h (by simp)
        · have : vs = n :: ws := by
            simpa using h.symm
          subst this
          simp [ih h2]

theorem mapM_pyInt_of_forall : ∀ {ss : List (List Char)},
    (∀ s ∈ ss, (pyIntParse s).isSome) → ∃ vs, ss.mapM pyIntParse = some vs := by
  intro ss
  induction ss with
  | nil => intro _; exact ⟨[], rfl⟩
  | cons s ss ih =>
      intro h
      rcases Option.isSome_iff_exists.mp (h s (by simp)) with ⟨n, hn⟩
      rcases ih (fun u hu => h u (by simp [hu])) with ⟨ws, hws⟩
      exact ⟨n :: ws, by rw [List.mapM_cons, hn, hws]; rfl⟩

theorem mapM_pyInt_forall : ∀ {ss : List (List Char)} {vs : List Int},
    ss.mapM pyIntParse = some vs → ∀ s ∈ ss, (pyIntParse s).isSome := by
  intro ss
  induction ss with
  | nil => intro vs _ s hs; exact absurd hs (by simp)
  | cons s ss ih =>
      intro vs h u hu
      rw [List.mapM_cons] at h
      rcases h1 : pyIntParse s with _ | n <;> rw [h1] at h
      · exact absurd h (by simp)
      · rcases h2 : ss.mapM pyIntParse with _ | ws <;> rw [h2] at h
        · exact absurd h (by simp)
        · rcases hu with _ | ⟨_, hu⟩
          · simp [h1]
          · exact ih h2 u hu

/-- A float-field extraction never raises when every fragment value that can
be found parses. -/
theorem getFloatR_ok {f : List Char} {fs : List (List Char × List Char)}
    (h : ∀ kv ∈ fs, (pyFloatParse kv.snd).isSome = true) :
    ∃ x, getFloatR f fs = .ok x := by
  rw [getFloatR]
  rcases hl : fieldLook f fs with _ | v
  · exact ⟨Option.none, rfl⟩
  · have hv : ∃ kv ∈ fs, kv.snd = v := by
      rw [fieldLook] at hl
      rcases hf : fs.find? (fun kv => endsIn f kv.fst) with _ | kv
      · rw [hf] at hl; exact absurd hl (by simp)
      · rw [hf] at hl
        exact ⟨kv, List.mem_of_find?_eq_some hf, by simpa using hl⟩
    rcases hv with ⟨kv, hkv, rfl⟩
    rcases Option.isSome_iff_exists.mp (h kv hkv) with ⟨q, hq⟩
    dsimp only
    rw [hq]
    exact ⟨Option.some q, rfl⟩

theorem getIntR_ok {f : List Char} {fs : List (List Char × List Char)}
    (h : ∀ kv ∈ fs, (pyFloatParse kv.snd).isSome = true) :
    ∃ x, getIntR f fs = .ok x := by
  rw [getIntR]
  rcases hl : fieldLook f fs with _ | v
  · exact ⟨Option.none, rfl⟩
  · have hv : ∃ kv ∈ fs, kv.snd = v := by
      rw [fieldLook] at hl
      rcases hf : fs.find? (fun kv => endsIn f kv.fst) with _ | kv
      · rw [hf] at hl; exact absurd hl (by simp)
      · rw [hf] at hl
        exact ⟨kv, List.mem_of_find?_eq_some hf, by simpa using hl⟩
    rcases hv with ⟨kv, hkv, rfl⟩
    rcases Option.isSome_iff_exists.mp (h kv hkv) with ⟨q, hq⟩
    dsimp only
    rw [hq]
    exact ⟨Option.some (ratTrunc q), rfl⟩

/-! ## Lemmas: structure of the accumulation loops -/

/-- An error of the whole loop comes from an error of some fragment. -/
theorem collectPoints_ok : ∀ (gs : List (List Char × List Char)),
    (∀ g ∈ gs, processFragment g ≠ .error ()) →
    ∃ pts, collectPoints gs = .ok pts := by
  intro gs
  induction gs with
  | nil => intro _; exact ⟨[], rfl⟩
  | cons g gs ih =>
      intro h
      rw [collectPoints]
      rcases hp : processFragment g with e | p
      · cases e; exact absurd hp (h g (by simp))
      · rcases ih (fun u hu => h u (by simp [hu])) with ⟨pts, hpts⟩
        rw [hpts]
        match p with
        | Option.none => exact ⟨pts, rfl⟩
        | Option.some pt => exact ⟨pt :: pts, rfl⟩

/-- On success the loop output is the in-order `filterMap` of the per-match
results. -/
theorem collectPoints_filterMap : ∀ (gs : List (List Char × List Char))
    (pts : List ChartPoint), collectPoints gs = .ok pts →
    pts = gs.filterMap (fun g =>
      match processFragment g with
      | .ok p => p
      | .error _ => Option.none) := by
  intro gs
  induction gs with
  | nil =>
      intro pts h
      have h' : Except.ok ([] : List ChartPoint) = Except.ok pts := h
      simp only [Except.ok.injEq] at h'
      simp [← h']
  | cons g gs ih =>
      intro pts h
      rw [collectPoints] at h
      rcases hp : processFragment g with e | p <;> rw [hp] at h
      · exact absurd h (by simp)
      · rw [List.filterMap_cons, hp]
        match p, h with
        | Option.none, h =>
            exact ih pts h
        | Option.some pt, h =>
            rcases hc : collectPoints gs with e | pts' <;> rw [hc] at h
            · exact absurd h (by simp)
            · have h' : pt :: pts' = pts := by simpa using h
              rw [← h', ← ih pts' hc]

/-- The record-level loop on success is the in-order `filterMap`. -/
theorem chartOfRecs_filterMap : ∀ (rs : List FragSpec),
    (∀ r ∈ rs, pointOf r ≠ .error ()) →
    chartOfRecs rs = .ok (rs.filterMap (fun r =>
      match pointOf r with
      | .ok p => p
      | .error _ => Option.none)) := by
  intro rs
  induction rs with
  | nil => intro _; rfl
  | cons r rs ih =>
      intro h
      rw [chartOfRecs, List.filterMap_cons]
      rcases hp : pointOf r with e | p
      · cases e; exact absurd hp (h r (by simp))
      · rw [ih (fun u hu => h u (by simp [hu]))]
        match p with
        | Option.none => rfl
        | Option.some pt => rfl

/-- A record the loop body skips contributes nothing to the output. -/
theorem chartOfRecs_skip : ∀ (rs1 : List FragSpec) (r : FragSpec)
    (rs2 : List FragSpec), pointOf r = .ok Option.none →
    chartOfRecs (rs1 ++ r :: rs2) = chartOfRecs (rs1 ++ rs2) := by
  intro rs1 r rs2 hr
  induction rs1 with
  | nil => rw [List.nil_append, List.nil_append, chartOfRecs, hr]
  | cons u rs1 ih => rw [List.cons_append, List.cons_append, chartOfRecs, chartOfRecs, ih]

/-! ## Lemmas: sign of parsed numbers -/

theorem mem_of_mem_pyStrip {s : List Char} {c : Char} (h : c ∈ pyStrip s) : c ∈ s := by
  unfold pyStrip at h
  have h1 := List.mem_reverse.mp h
  have h2 := List.dropWhile_sublist (p := isPyWS)
    (l := (s.dropWhile isPyWS).reverse) |>.mem h1
  have h3 := List.mem_reverse.mp h2
  exact (List.dropWhile_sublist (p := isPyWS) (l := s)).mem h3

theorem decValue_nonneg (ip fp : List Char) : 0 ≤ decValue ip fp := by
  rw [decValue, Rat.mkRat_eq_div]
  positivity

theorem pyFloatCore_nonneg {t : List Char} {q : Rat} (h : pyFloatCore t = some q) :
    0 ≤ q := by
  rw [pyFloatCore] at h
  split at h
  · split at h
    · exact absurd h (by simp)
    · have hq : q = decValue (t.takeWhile isDigitC) [] := by simpa using h.symm
      rw [hq]
      exact decValue_nonneg _ _
  · split at h
    · split at h
      · rename_i fp _ _ _
        have hq : q = decValue (t.takeWhile isDigitC) fp := by
          simpa using h.symm
        rw [hq]
        exact decValue_nonneg _ _
      · exact absurd h (by simp)
    · exact absurd h (by simp)

/-- A minus-free value parses to a non-negative rational. -/
theorem pyFloatParse_nonneg {v : List Char} {q : Rat}
    (h : pyFloatParse v = some q) (hm : '-' ∉ v) : 0 ≤ q := by
  rw [pyFloatParse] at h
  rcases hs : pyStrip v with _ | ⟨c, t⟩ <;> rw [hs] at h
  · exact absurd h (by simp)
  · have h : (if c = '+' then pyFloatCore t
        else if c = '-' then Option.map (fun q => -q) (pyFloatCore t)
        else pyFloatCore (c :: t)) = some q := h
    by_cases hp : c = '+'
    · rw [if_pos hp] at h
      exact pyFloatCore_nonneg h
    · rw [if_neg hp] at h
      by_cases hn : c = '-'
      · exfalso
        apply hm
        apply mem_of_mem_pyStrip (s := v)
        rw [hs, hn]
        simp
      · rw [if_neg hn] at h
        exact pyFloatCore_nonneg h

theorem ratTrunc_nonneg {q : Rat} (h : 0 ≤ q) : 0 ≤ ratTrunc q := by
  rw [ratTrunc]
  have h1 : 0 ≤ q.num := Rat.num_nonneg.mpr h
  have h2 : (0 : Int) ≤ (q.den : Int) := by positivity
  exact Int.tdiv_nonneg h1 h2

/-! ## Lemmas: evaluating `pointOf` -/

theorem goodFrag_mk {ds : List (List Char)} {fs : List (List Char × List Char)}
    (h1 : ds ≠ []) (h2 : ∀ s ∈ ds, (pyIntParse s).isSome)
    (h3 : goodFields fs = true) : goodFrag ⟨ds, fs⟩ = true := by
  simp only [goodFrag, Bool.and_eq_true, List.all_eq_true]
  refine ⟨⟨by simpa using h1, fun s hs => ?_⟩, h3⟩
  simpa [goodDateStr] using h2 s hs

theorem getFloatR_congr {f : List Char} {fs fs' : List (List Char × List Char)}
    (h : fieldLook f fs = fieldLook f fs') : getFloatR f fs = getFloatR f fs' := by
  rw [getFloatR, getFloatR, h]

theorem getIntR_congr {f : List Char} {fs fs' : List (List Char × List Char)}
    (h : fieldLook f fs = fieldLook f fs') : getIntR f fs = getIntR f fs' := by
  rw [getIntR, getIntR, h]

theorem pointOf_eval {r : FragSpec} {vals : List Int} {dt : PyDatetime}
    {c? h? l? o? p? : Option Rat} {v? d? : Option Int}
    (hm : r.dateStrs.mapM pyIntParse = some vals)
    (h3 : 3 ≤ vals.length)
    (hdt : mkPyDatetime (vals.getD 0 0) (vals.getD 1 0 + 1) (vals.getD 2 0)
      (vals.getD 3 0) (vals.getD 4 0) (vals.getD 5 0) = some dt)
    (hc : getFloatR closeName r.fields = .ok c?)
    (hh : getFloatR highName r.fields = .ok h?)
    (hl : getFloatR lowName r.fields = .ok l?)
    (ho : getFloatR openName r.fields = .ok o?)
    (hv : getIntR volumeName r.fields = .ok v?)
    (hp : getFloatR pctrelName r.fields = .ok p?)
    (hd : getIntR decimalsName r.fields = .ok d?) :
    pointOf r = .ok (c?.map (fun c =>
      { date := dt, open_ := o?.getD 0, high := h?.getD 0, low := l?.getD 0,
        close := c, volume := v?.getD 0, pctrel := p?.getD 0,
        decimals := d?.getD 2 })) := by
  rw [pointOf, hm]
  dsimp only
  rw [if_pos h3, hdt]
  dsimp only
  rw [hc, hh, hl, ho, hv, hp, hd]
  match c? with
  | Option.none => rfl
  | Option.some c => rfl

theorem chartOfRecs_single {r : FragSpec} {p : Option ChartPoint}
    (h : pointOf r = .ok p) :
    chartOfRecs [r] = .ok p.toList := by
  rw [chartOfRecs, h]
  match p with
  | Option.none => rfl
  | Option.some pt => rfl

/-! ## The claims -/

/-- C1 (counterexample): on a fragment whose date arguments are not
integers, `_parse_chart_response` raises `ValueError` (from `int(...)`),
contradicting "never raises an exception, however malformed the input". -/
theorem c1_counterexample :
    parseChart ("\x7bdate:new Date(x),close:1\x7d".toList) = .error () := by
  decide

/-- C1 (amended): an input with zero fragment matches yields the empty
sequence without raising, and in general the parser raises only when some
matched fragment does: if every matched fragment processes without error,
the whole parse returns a sequence. -/
theorem c1_no_matches_empty_and_errors_are_local (text : List Char) :
    (findMatches text = [] → parseChart text = .ok []) ∧
    ((∀ g ∈ findMatches text, processFragment g ≠ .error ()) →
      ∃ pts, parseChart text = .ok pts) := by
  constructor
  · intro h
    rw [parseChart, h]
    rfl
  · intro h
    rw [parseChart]
    exact collectPoints_ok (findMatches text) h

theorem c1_witness :
    parseChart ("[]".toList) = .ok [] ∧
    (∃ pts, parseChart
      ("[\x7bdate:new Date(2025, 0, 21),close:0.24\x7d]".toList) = .ok pts) :=
  ⟨(c1_no_matches_empty_and_errors_are_local _).1 (by decide),
   (c1_no_matches_empty_and_errors_are_local _).2 (by decide)⟩

/-- C2: for a fragment `\x7bdate:new Date(Y, M, D[, h, m, s]),close:C,...\x7d`
whose date components are integers (at least three) and whose resulting
timestamp is valid, the parsed point's timestamp is
`(Y, M+1, D, h, m, s)` with the optional components defaulting to `0`, and
its close equals `C`. -/
theorem c2_month_conversion_and_close
    (sY sM sD sC : List Char) (tss : List (List Char)) (tvs : List Int)
    (fs : List (List Char × List Char))
    (Y M D : Int) (C : Rat) (dt : PyDatetime)
    (hY : pyIntParse sY = some Y) (hM : pyIntParse sM = some M)
    (hD : pyIntParse sD = some D)
    (hts : tss.mapM pyIntParse = some tvs)
    (hC : pyFloatParse sC = some C) (hCg : goodVal sC = true)
    (hfs : goodFields fs = true)
    (hfv : ∀ kv ∈ fs, (pyFloatParse kv.snd).isSome = true)
    (hdt : mkPyDatetime Y (M + 1) D (tvs.getD 0 0) (tvs.getD 1 0) (tvs.getD 2 0) =
      some dt) :
    ∃ pt, parseChart (inputText [⟨[sY, sM, sD] ++ tss, (closeName, sC) :: fs⟩]) =
        .ok [pt] ∧
      pt.date = { year := Y, month := M + 1, day := D, hour := tvs.getD 0 0,
                  minute := tvs.getD 1 0, second := tvs.getD 2 0 } ∧
      pt.close = C := by
  set r : FragSpec := ⟨[sY, sM, sD] ++ tss, (closeName, sC) :: fs⟩ with hr
  have hgood : goodFrag r = true := by
    apply goodFrag_mk (by simp)
    · intro s hs
      rcases List.mem_append.mp hs with h | h
      · simp only [List.mem_cons, List.not_mem_nil, or_false] at h
        rcases h with rfl | rfl | rfl
        · simp [hY]
        · simp [hM]
        · simp [hD]
      · exact mapM_pyInt_forall hts s h
    · simp only [goodFields, List.all_eq_true]
      intro kv hkv
      rcases hkv with _ | ⟨_, hkv⟩
      · simp only [Bool.and_eq_true]
        exact ⟨by decide, hCg⟩
      · simp only [goodFields, List.all_eq_true] at hfs
        exact hfs kv hkv
  have hm : r.dateStrs.mapM pyIntParse = some ([Y, M, D] ++ tvs) := by
    rw [show r.dateStrs = sY :: sM :: sD :: tss from rfl]
    rw [List.mapM_cons, hY, List.mapM_cons, hM, List.mapM_cons, hD, hts]
    rfl
  have hfieldC : getFloatR closeName r.fields = .ok (Option.some C) := by
    rw [getFloatR, show r.fields = (closeName, sC) :: fs from rfl,
      fieldLook_cons_true (endsIn_refl closeName)]
    dsimp only
    rw [hC]
  have hrest : ∀ f, endsIn f closeName = false →
      ∃ x, getFloatR f r.fields = .ok x := by
    intro f hf
    rw [show r.fields = (closeName, sC) :: fs from rfl,
      getFloatR_congr (fieldLook_cons_false hf)]
    exact getFloatR_ok hfv
  have hrestI : ∀ f, endsIn f closeName = false →
      ∃ x, getIntR f r.fields = .ok x := by
    intro f hf
    rw [show r.fields = (closeName, sC) :: fs from rfl,
      getIntR_congr (fieldLook_cons_false hf)]
    exact getIntR_ok hfv
  obtain ⟨xh, hxh⟩ := hrest highName (by decide)
  obtain ⟨xl, hxl⟩ := hrest lowName (by decide)
  obtain ⟨xo, hxo⟩ := hrest openName (by decide)
  obtain ⟨xv, hxv⟩ := hrestI volumeName (by decide)
  obtain ⟨xp, hxp⟩ := hrest pctrelName (by decide)
  obtain ⟨xd, hxd⟩ := hrestI decimalsName (by decide)
  have hdt' : mkPyDatetime (([Y, M, D] ++ tvs).getD 0 0)
      (([Y, M, D] ++ tvs).getD 1 0 + 1) (([Y, M, D] ++ tvs).getD 2 0)
      (([Y, M, D] ++ tvs).getD 3 0) (([Y, M, D] ++ tvs).getD 4 0)
      (([Y, M, D] ++ tvs).getD 5 0) = some dt := by
    simpa only [List.cons_append, List.nil_append, List.getD_cons_zero,
      List.getD_cons_succ] using hdt
  have hpoint := pointOf_eval hm (by simp) hdt' hfieldC hxh hxl hxo hxv hxp hxd
  have hdtfields : dt =
      ⟨Y, M + 1, D, tvs.getD 0 0, tvs.getD 1 0, tvs.getD 2 0⟩ := by
    rw [mkPyDatetime] at hdt
    split at hdt
    · injection hdt with h'
      exact h'.symm
    · exact absurd hdt (by simp)
  have hsingle : ∀ u ∈ [r], goodFrag u = true := by
    intro u hu
    rcases hu with _ | ⟨_, hu⟩
    · exact hgood
    · exact absurd hu (List.not_mem_nil u)
  refine ⟨{ date := dt, open_ := xo.getD 0, high := xh.getD 0, low := xl.getD 0,
            close := C, volume := xv.getD 0, pctrel := xp.getD 0,
            decimals := xd.getD 2 }, ?_, ?_, ?_⟩
  · rw [parseChart_input hsingle, chartOfRecs_single hpoint]
    rfl
  · exact hdtfields
  · rfl

theorem c2_witness :
    ∃ pt, parseChart (inputText [⟨["2025".toList, "0".toList, "21".toList] ++
        ["9".toList, "30".toList, "45".toList],
        (closeName, "0.24".toList) :: [("high".toList, "0.25".toList)]⟩]) =
        .ok [pt] ∧
      pt.date = { year := 2025, month := 0 + 1, day := 21, hour := 9,
                  minute := 30, second := 45 } ∧
      pt.close = mkRat 6 25 :=
  c2_month_conversion_and_close "2025".toList "0".toList "21".toList
    "0.24".toList ["9".toList, "30".toList, "45".toList] [9, 30, 45]
    [("high".toList, "0.25".toList)] 2025 0 21 (mkRat 6 25)
    ⟨2025, 0 + 1, 21, 9, 30, 45⟩
    (by decide) (by decide) (by decide) (by decide) (by decide) (by decide)
    (by decide) (by decide) (by decide)

/-- A float-field extraction succeeds when every findable value parses. -/
theorem getFloatField_ok {f obj : List Char} (hf : f ∈ fieldNames)
    (h : fieldValsParse obj = true) : ∃ x, getFloatField f obj = .ok x := by
  rw [getFloatField]
  rcases hs : searchName f obj with _ | v
  · exact ⟨Option.none, rfl⟩
  · simp only [fieldValsParse, List.all_eq_true] at h
    have := h f hf
    rw [hs] at this
    dsimp only at this
    rcases Option.isSome_iff_exists.mp this with ⟨q, hq⟩
    dsimp only
    rw [hq]
    exact ⟨Option.some q, rfl⟩

theorem getIntField_ok {f obj : List Char} (hf : f ∈ fieldNames)
    (h : fieldValsParse obj = true) : ∃ x, getIntField f obj = .ok x := by
  rw [getIntField]
  rcases hs : searchName f obj with _ | v
  · exact ⟨Option.none, rfl⟩
  · simp only [fieldValsParse, List.all_eq_true] at h
    have := h f hf
    rw [hs] at this
    dsimp only at this
    rcases Option.isSome_iff_exists.mp this with ⟨q, hq⟩
    dsimp only
    rw [hq]
    exact ⟨Option.some (ratTrunc q), rfl⟩

/-- C3 (counterexample): a fragment whose date part has fewer than three
components is not always discarded silently: when a component is not an
integer, `int(...)` raises instead. -/
theorem c3_counterexample :
    parseChart ("\x7bdate:new Date(a,b),close:1\x7d".toList) = .error () := by
  decide

/-- C3 (amended): a fragment whose date components are integers but fewer
than three is skipped silently; a fragment with a valid timestamp, no
`close` match and parseable present field values is skipped silently; and a
record the loop body skips contributes no point to the output. -/
theorem c3_skip_invalid (g : List Char × List Char) :
    ((∀ s ∈ splitCommas g.fst, (pyIntParse s).isSome) →
      (splitCommas g.fst).length < 3 → processFragment g = .ok Option.none) ∧
    (∀ vals dt, (splitCommas g.fst).mapM pyIntParse = some vals →
      3 ≤ vals.length →
      mkPyDatetime (vals.getD 0 0) (vals.getD 1 0 + 1) (vals.getD 2 0)
        (vals.getD 3 0) (vals.getD 4 0) (vals.getD 5 0) = some dt →
      searchName closeName (fullObj g.fst g.snd) = Option.none →
      fieldValsParse (fullObj g.fst g.snd) = true →
      processFragment g = .ok Option.none) ∧
    (∀ (rs1 : List FragSpec) (r : FragSpec) (rs2 : List FragSpec),
      (∀ u ∈ rs1 ++ r :: rs2, goodFrag u = true) →
      pointOf r = .ok Option.none →
      parseChart (inputText (rs1 ++ r :: rs2)) =
        parseChart (inputText (rs1 ++ rs2))) := by
  refine ⟨?_, ?_, ?_⟩
  · intro h1 h3
    obtain ⟨vals, hm⟩ := mapM_pyInt_of_forall h1
    have hlen := mapM_pyInt_length hm
    rw [processFragment, hm]
    dsimp only
    rw [if_neg (by omega)]
  · intro vals dt hm h3 hdt hclose hvals
    rw [processFragment, hm]
    dsimp only
    rw [if_pos h3, hdt]
    dsimp only
    have hcl : getFloatField closeName (fullObj g.fst g.snd) = .ok Option.none := by
      rw [getFloatField, hclose]
    obtain ⟨xh, hxh⟩ := getFloatField_ok (f := highName) (by decide) hvals
    obtain ⟨xl, hxl⟩ := getFloatField_ok (f := lowName) (by decide) hvals
    obtain ⟨xo, hxo⟩ := getFloatField_ok (f := openName) (by decide) hvals
    obtain ⟨xv, hxv⟩ := getIntField_ok (f := volumeName) (by decide) hvals
    obtain ⟨xp, hxp⟩ := getFloatField_ok (f := pctrelName) (by decide) hvals
    obtain ⟨xd, hxd⟩ := getIntField_ok (f := decimalsName) (by decide) hvals
    rw [hcl, hxh, hxl, hxo, hxv, hxp, hxd]
  · intro rs1 r rs2 hg hr
    have hg' : ∀ u ∈ rs1 ++ rs2, goodFrag u = true := by
      intro u hu
      apply hg
      rcases List.mem_append.mp hu with h | h
      · exact List.mem_append.mpr (Or.inl h)
      · exact List.mem_append.mpr (Or.inr (by simp [h]))
    rw [parseChart_input hg, parseChart_input hg', chartOfRecs_skip rs1 r rs2 hr]

theorem c3_witness :
    processFragment ("1,2".toList, ",close:9".toList) = .ok Option.none ∧
    processFragment ("2025,0,21".toList, ",foo:9".toList) = .ok Option.none ∧
    parseChart (inputText ([⟨["2025".toList, "0".toList, "21".toList],
        [(closeName, "1".toList)]⟩] ++
      ⟨["2025".toList, "0".toList], [(closeName, "2".toList)]⟩ :: [])) =
      parseChart (inputText ([⟨["2025".toList, "0".toList, "21".toList],
        [(closeName, "1".toList)]⟩] ++ [])) :=
  ⟨(c3_skip_invalid _).1 (by decide) (by decide),
   (c3_skip_invalid _).2.1 [2025, 0, 21] ⟨2025, 1, 21, 0, 0, 0⟩
     (by decide) (by decide) (by decide) (by decide) (by decide),
   (c3_skip_invalid ("1,2".toList, ",close:9".toList)).2.2 _ _ _
     (by decide) (by decide)⟩

/-- C4: a fragment with only a valid date and a close value yields a point
whose other fields take the defaults: open 0.0, high 0.0, low 0.0,
volume 0, pctrel 0.0, decimals 2. -/
theorem c4_defaults (sY sM sD sC : List Char) (Y M D : Int) (C : Rat)
    (dt : PyDatetime)
    (hY : pyIntParse sY = some Y) (hM : pyIntParse sM = some M)
    (hD : pyIntParse sD = some D)
    (hC : pyFloatParse sC = some C) (hCg : goodVal sC = true)
    (hdt : mkPyDatetime Y (M + 1) D 0 0 0 = some dt) :
    parseChart (inputText [⟨[sY, sM, sD], [(closeName, sC)]⟩]) =
      .ok [{ date := dt, open_ := 0, high := 0, low := 0, close := C,
             volume := 0, pctrel := 0, decimals := 2 }] := by
  set r : FragSpec := ⟨[sY, sM, sD], [(closeName, sC)]⟩ with hr
  have hgood : goodFrag r = true := by
    apply goodFrag_mk (by simp)
    · intro s hs
      simp only [List.mem_cons, List.not_mem_nil, or_false] at hs
      rcases hs with rfl | rfl | rfl
      · simp [hY]
      · simp [hM]
      · simp [hD]
    · simp only [goodFields, List.all_eq_true]
      intro kv hkv
      rcases hkv with _ | ⟨_, hkv⟩
      · simp only [Bool.and_eq_true]
        exact ⟨by decide, hCg⟩
      · exact absurd hkv (List.not_mem_nil kv)
  have hm : r.dateStrs.mapM pyIntParse = some [Y, M, D] := by
    rw [show r.dateStrs = [sY, sM, sD] from rfl,
      List.mapM_cons, hY, List.mapM_cons, hM, List.mapM_cons, hD]
    rfl
  have hfieldC : getFloatR closeName r.fields = .ok (Option.some C) := by
    rw [getFloatR, show r.fields = [(closeName, sC)] from rfl,
      fieldLook_cons_true (endsIn_refl closeName)]
    dsimp only
    rw [hC]
  have habsent : ∀ f, endsIn f closeName = false →
      fieldLook f r.fields = Option.none := by
    intro f hf
    rw [show r.fields = [(closeName, sC)] from rfl, fieldLook_cons_false hf]
    rfl
  have hsingle : ∀ u ∈ [r], goodFrag u = true := by
    intro u hu
    rcases hu with _ | ⟨_, hu⟩
    · exact hgood
    · exact absurd hu (List.not_mem_nil u)
  have hhigh : getFloatR highName r.fields = .ok Option.none := by
    rw [getFloatR, habsent highName (by decide)]
  have hlow : getFloatR lowName r.fields = .ok Option.none := by
    rw [getFloatR, habsent lowName (by decide)]
  have hopen : getFloatR openName r.fields = .ok Option.none := by
    rw [getFloatR, habsent openName (by decide)]
  have hvol : getIntR volumeName r.fields = .ok Option.none := by
    rw [getIntR, habsent volumeName (by decide)]
  have hpct : getFloatR pctrelName r.fields = .ok Option.none := by
    rw [getFloatR, habsent pctrelName (by decide)]
  have hdec : getIntR decimalsName r.fields = .ok Option.none := by
    rw [getIntR, habsent decimalsName (by decide)]
  have hpoint := pointOf_eval hm (by simp) hdt hfieldC hhigh hlow hopen hvol
    hpct hdec
  rw [parseChart_input hsingle, chartOfRecs_single hpoint]
  rfl

theorem c4_witness :
    parseChart (inputText [⟨["2025".toList, "0".toList, "21".toList],
        [(closeName, "0.24".toList)]⟩]) =
      .ok [{ date := ⟨2025, 0 + 1, 21, 0, 0, 0⟩, open_ := 0, high := 0, low := 0,
             close := mkRat 6 25, volume := 0, pctrel := 0, decimals := 2 }] :=
  c4_defaults "2025".toList "0".toList "21".toList "0.24".toList 2025 0 21
    (mkRat 6 25) ⟨2025, 0 + 1, 21, 0, 0, 0⟩
    (by decide) (by decide) (by decide) (by decide) (by decide) (by decide)

/-- C5: the output points appear in the order of their fragments: on success
the output is the in-order `filterMap` of the per-fragment results, both for
arbitrary input text and for rendered record sequences. -/
theorem c5_source_order :
    (∀ (text : List Char) (pts : List ChartPoint), parseChart text = .ok pts →
      pts = (findMatches text).filterMap (fun g =>
        match processFragment g with
        | .ok p => p
        | .error _ => Option.none)) ∧
    (∀ rs : List FragSpec, (∀ r ∈ rs, goodFrag r = true) →
      (∀ r ∈ rs, pointOf r ≠ .error ()) →
      parseChart (inputText rs) = .ok (rs.filterMap (fun r =>
        match pointOf r with
        | .ok p => p
        | .error _ => Option.none))) := by
  constructor
  · intro text pts h
    rw [parseChart] at h
    exact collectPoints_filterMap (findMatches text) pts h
  · intro rs hg hok
    rw [parseChart_input hg, chartOfRecs_filterMap rs hok]

theorem c5_witness :
    parseChart (inputText [⟨["2025".toList, "0".toList, "21".toList],
        [(closeName, "0.24".toList)]⟩,
      ⟨["2025".toList, "0".toList, "22".toList],
        [(closeName, "0.25".toList)]⟩]) =
      .ok ([⟨["2025".toList, "0".toList, "21".toList],
        [(closeName, "0.24".toList)]⟩,
      ⟨["2025".toList, "0".toList, "22".toList],
        [(closeName, "0.25".toList)]⟩].filterMap (fun r =>
          match pointOf r with
          | .ok p => p
          | .error _ => Option.none)) ∧
    ([⟨["2025".toList, "0".toList, "21".toList],
        [(closeName, "0.24".toList)]⟩,
      ⟨["2025".toList, "0".toList, "22".toList],
        [(closeName, "0.25".toList)]⟩].filterMap (fun r =>
          match pointOf r with
          | .ok p => p
          | .error _ => Option.none)).map ChartPoint.close =
      [mkRat 6 25, mkRat 1 4] :=
  ⟨c5_source_order.2 _ (by decide) (by decide), by decide⟩

/-- Removing a middle pair whose key never ends in the searched name leaves
the lookup unchanged. -/
theorem fieldLook_middle {f k v : List Char} (hk : endsIn f k = false) :
    ∀ (fs1 fs2 : List (List Char × List Char)),
    fieldLook f (fs1 ++ (k, v) :: fs2) = fieldLook f (fs1 ++ fs2) := by
  intro fs1
  induction fs1 with
  | nil => intro fs2; rw [List.nil_append, List.nil_append, fieldLook_cons_false hk]
  | cons u us ih =>
      intro fs2
      rcases hu : endsIn f u.fst with _ | _
      · rw [List.cons_append, List.cons_append,
          show (u :: (us ++ (k, v) :: fs2)) = (u.fst, u.snd) :: (us ++ (k, v) :: fs2)
            from by simp,
          show (u :: (us ++ fs2)) = (u.fst, u.snd) :: (us ++ fs2) from by simp,
          fieldLook_cons_false hu, fieldLook_cons_false hu, ih fs2]
      · rw [List.cons_append, List.cons_append,
          show (u :: (us ++ (k, v) :: fs2)) = (u.fst, u.snd) :: (us ++ (k, v) :: fs2)
            from by simp,
          show (u :: (us ++ fs2)) = (u.fst, u.snd) :: (us ++ fs2) from by simp,
          fieldLook_cons_true hu, fieldLook_cons_true hu]

/-- `pointOf` depends on the fields only through the seven lookups. -/
theorem pointOf_fields_congr {ds : List (List Char)}
    {fs fs' : List (List Char × List Char)}
    (h : ∀ f ∈ fieldNames, fieldLook f fs = fieldLook f fs') :
    pointOf ⟨ds, fs⟩ = pointOf ⟨ds, fs'⟩ := by
  rw [pointOf, pointOf]
  dsimp only
  simp only [getFloatR_congr (h closeName (by decide)),
    getFloatR_congr (h highName (by decide)),
    getFloatR_congr (h lowName (by decide)),
    getFloatR_congr (h openName (by decide)),
    getIntR_congr (h volumeName (by decide)),
    getFloatR_congr (h pctrelName (by decide)),
    getIntR_congr (h decimalsName (by decide))]

/-- C6 (counterexample): an unknown key ending in a recognized field name is
not ignored: `xclose:5` makes the parser extract `close = 5` and emit a
point, while the same fragment without the pair yields no point. -/
theorem c6_counterexample :
    parseChart ("\x7bdate:new Date(2025,0,21),xclose:5\x7d".toList) =
      .ok [{ date := ⟨2025, 1, 21, 0, 0, 0⟩, open_ := 0, high := 0, low := 0,
             close := 5, volume := 0, pctrel := 0, decimals := 2 }] ∧
    parseChart ("\x7bdate:new Date(2025,0,21)\x7d".toList) = .ok [] := by
  constructor
  · decide
  · decide

/-- C6 (amended): adding or removing a `key:value` pair whose key does not
end in any recognized field name does not change the parsed output. -/
theorem c6_unknown_keys_ignored (ds : List (List Char))
    (fs1 fs2 : List (List Char × List Char)) (k v : List Char)
    (hg : goodFrag ⟨ds, fs1 ++ (k, v) :: fs2⟩ = true)
    (hk : ∀ f ∈ fieldNames, endsIn f k = false) :
    parseChart (inputText [⟨ds, fs1 ++ (k, v) :: fs2⟩]) =
      parseChart (inputText [⟨ds, fs1 ++ fs2⟩]) := by
  have hg' : goodFrag ⟨ds, fs1 ++ fs2⟩ = true := by
    simp only [goodFrag, goodFields, Bool.and_eq_true, List.all_eq_true] at hg ⊢
    refine ⟨hg.1, fun kv hkv => ?_⟩
    apply hg.2
    rcases List.mem_append.mp hkv with h | h
    · exact List.mem_append.mpr (Or.inl h)
    · exact List.mem_append.mpr (Or.inr (by simp [h]))
  have hsingle : ∀ u ∈ [(⟨ds, fs1 ++ (k, v) :: fs2⟩ : FragSpec)], goodFrag u = true := by
    intro u hu
    rcases hu with _ | ⟨_, hu⟩
    · exact hg
    · exact absurd hu (List.not_mem_nil u)
  have hsingle' : ∀ u ∈ [(⟨ds, fs1 ++ fs2⟩ : FragSpec)], goodFrag u = true := by
    intro u hu
    rcases hu with _ | ⟨_, hu⟩
    · exact hg'
    · exact absurd hu (List.not_mem_nil u)
  rw [parseChart_input hsingle, parseChart_input hsingle']
  have hpe : pointOf ⟨ds, fs1 ++ (k, v) :: fs2⟩ = pointOf ⟨ds, fs1 ++ fs2⟩ :=
    pointOf_fields_congr (fun f hf => fieldLook_middle (hk f hf) fs1 fs2)
  unfold chartOfRecs
  rw [hpe]

theorem c6_witness :
    parseChart (inputText [⟨["2025".toList, "0".toList, "21".toList],
        [(closeName, "1".toList)] ++ ("volx".toList, "9".toList) :: []⟩]) =
      parseChart (inputText [⟨["2025".toList, "0".toList, "21".toList],
        [(closeName, "1".toList)] ++ []⟩]) :=
  c6_unknown_keys_ignored _ _ _ _ _ (by decide) (by decide)

/-- Inversion of the int-field extraction. -/
theorem getIntR_inv {f : List Char} {fs : List (List Char × List Char)}
    {v? : Option Int} (h : getIntR f fs = .ok v?) :
    (fieldLook f fs = Option.none ∧ v? = Option.none) ∨
    (∃ v q, fieldLook f fs = Option.some v ∧ pyFloatParse v = some q ∧
      v? = Option.some (ratTrunc q)) := by
  rw [getIntR] at h
  rcases hfl : fieldLook f fs with _ | v <;> rw [hfl] at h
  · left
    dsimp only at h
    injection h with h'
    exact ⟨rfl, h'.symm⟩
  · right
    dsimp only at h
    rcases hq : pyFloatParse v with _ | q <;> rw [hq] at h
    · exact absurd h (by simp)
    · injection h with h'
      exact ⟨v, q, rfl, hq, h'.symm⟩

/-- What the parser's volume can be on a successfully produced point. -/
theorem pointOf_volume {r : FragSpec} {pt : ChartPoint}
    (h : pointOf r = .ok (Option.some pt)) :
    (fieldLook volumeName r.fields = Option.none ∧ pt.volume = 0) ∨
    (∃ v q, fieldLook volumeName r.fields = Option.some v ∧
      pyFloatParse v = some q ∧ pt.volume = ratTrunc q) := by
  rw [pointOf] at h
  split at h
  · exact absurd h (by simp)
  · split at h
    · split at h
      · exact absurd h (by simp)
      · split at h
        · rename_i c? h? l? o? v? p? d? hc hh hl ho hv hp hd
          split at h
          · exact absurd h (by simp)
          · rename_i c hcs
            injection h with h'
            injection h' with h''
            rcases getIntR_inv hv with ⟨hfl, hnone⟩ | ⟨v, q, hfl, hq, hsome⟩
            · left
              refine ⟨hfl, ?_⟩
              rw [← h'', hnone]
              rfl
            · right
              refine ⟨v, q, hfl, hq, ?_⟩
              rw [← h'', hsome]
              rfl
        all_goals exact absurd h (by simp)
    · exact absurd h (by simp)

/-- C7 (counterexample): a fragment containing `volume:-5` yields a point
whose volume is the negative integer `-5`. -/
theorem c7_counterexample :
    (parseChart
        ("\x7bdate:new Date(2025,0,21),close:1,volume:-5\x7d".toList)).map
      (List.map ChartPoint.volume) = .ok [-5] := by
  decide

/-- C7 (amended): on a well-formed fragment, volume defaults to `0` when
absent and is non-negative whenever the found `volume` value has no minus
sign; and a signed `pctrel:-0.83` parses to `-0.83`. -/
theorem c7_volume_default_sign (r : FragSpec) (hg : goodFrag r = true) :
    ((fieldLook volumeName r.fields = Option.none →
      ∀ pts, parseChart (inputText [r]) = .ok pts →
        ∀ pt ∈ pts, pt.volume = 0) ∧
    (∀ v, fieldLook volumeName r.fields = Option.some v → '-' ∉ v →
      ∀ pts, parseChart (inputText [r]) = .ok pts →
        ∀ pt ∈ pts, 0 ≤ pt.volume)) ∧
    (parseChart
        ("\x7bdate:new Date(2025, 0, 21),close:0.24,pctrel:-0.83\x7d".toList)).map
      (List.map ChartPoint.pctrel) = .ok [mkRat (-83) 100] := by
  have hsingle : ∀ u ∈ [r], goodFrag u = true := by
    intro u hu
    rcases hu with _ | ⟨_, hu⟩
    · exact hg
    · exact absurd hu (List.not_mem_nil u)
  have hmem : ∀ pts, parseChart (inputText [r]) = .ok pts →
      ∀ pt ∈ pts, pointOf r = .ok (Option.some pt) := by
    intro pts hp pt hpt
    rw [parseChart_input hsingle] at hp
    rcases hpo : pointOf r with e | p
    · rw [chartOfRecs, hpo] at hp
      exact absurd hp (by simp)
    · rw [chartOfRecs_single hpo] at hp
      injection hp with hp'
      match p, hp' with
      | Option.none, hp' =>
          rw [← hp'] at hpt
          exact absurd hpt (List.not_mem_nil pt)
      | Option.some pt0, hp' =>
          rw [← hp'] at hpt
          rcases hpt with _ | ⟨_, hpt⟩
          · rfl
          · exact absurd hpt (List.not_mem_nil pt)
  refine ⟨⟨?_, ?_⟩, by decide⟩
  · intro hnone pts hp pt hpt
    rcases pointOf_volume (hmem pts hp pt hpt) with ⟨_, hv⟩ | ⟨v, q, hfl, _, _⟩
    · exact hv
    · rw [hnone] at hfl
      exact absurd hfl (by simp)
  · intro v hsome hminus pts hp pt hpt
    rcases pointOf_volume (hmem pts hp pt hpt) with ⟨hfl, _⟩ | ⟨v', q, hfl, hq, hv⟩
    · rw [hsome] at hfl
      exact absurd hfl (by simp)
    · rw [hsome] at hfl
      injection hfl with hfl'
      rw [hv]
      exact ratTrunc_nonneg (pyFloatParse_nonneg (hfl' ▸ hq) hminus)

theorem c7_witness :
    ((parseChart (inputText [⟨["2025".toList, "0".toList, "21".toList],
        [(closeName, "1".toList)]⟩]) = .ok
          [(⟨⟨2025, 1, 21, 0, 0, 0⟩, 0, 0, 0, 1, 0, 0, 2⟩ : ChartPoint)]) ∧
      ∀ pt ∈ [(⟨⟨2025, 1, 21, 0, 0, 0⟩, 0, 0, 0, 1, 0, 0, 2⟩ : ChartPoint)],
        pt.volume = 0) ∧
    (∀ pts, parseChart (inputText [⟨["2025".toList, "0".toList, "21".toList],
        [(closeName, "1".toList), (volumeName, "7.5".toList)]⟩]) = .ok pts →
      ∀ pt ∈ pts, 0 ≤ pt.volume) :=
  ⟨⟨by decide,
    (c7_volume_default_sign ⟨["2025".toList, "0".toList, "21".toList],
        [(closeName, "1".toList)]⟩ (by decide)).1.1 (by decide) _ (by decide)⟩,
   fun pts hp =>
    (c7_volume_default_sign ⟨["2025".toList, "0".toList, "21".toList],
        [(closeName, "1".toList), (volumeName, "7.5".toList)]⟩ (by decide)).1.2
      "7.5".toList (by decide) (by decide) pts hp⟩

/-- C8 (counterexample): a record whose `ID_NOTATION` is present with value
`0` does not resolve to `0`: the `or`-chain skips the falsy value and takes
the later `id` key, yielding `7`. -/
theorem c8_counterexample :
    searchMap (PyVal.list [PyVal.dict [("ID_NOTATION".toList, PyVal.int 0),
        ("id".toList, PyVal.int 7)]]) =
      .ok [⟨7, PyVal.str [], PyVal.none, PyVal.none, PyVal.none,
        [("ID_NOTATION".toList, PyVal.int 0), ("id".toList, PyVal.int 7)]⟩] := rfl

/-- C8 (amended): a non-list response maps to the empty sequence; on each
record the identifier is the first candidate key with a truthy value among
`ID_NOTATION`, `id_notation`, `id` (converted by `int`), defaulting to `0`;
the name likewise among `NAME`, `name`, defaulting to the empty string;
symbol/market/type are absent when none of their keys is present; the raw
record is retained verbatim. -/
theorem c8_key_resolution (data : PyVal) :
    ((∀ xs, data ≠ PyVal.list xs) → searchMap data = .ok []) ∧
    (∀ d r, mkSearchResult d = .ok r →
      pyToInt (resolveKeys d ["ID_NOTATION".toList, "id_notation".toList,
        "id".toList] (PyVal.int 0)) = .ok ( SearchResult.id_notation r) ∧
      r.name = resolveKeys d ["NAME".toList, "name".toList] (PyVal.str []) ∧
      (pyGet d "SYMBOL".toList = PyVal.none → pyGet d "symbol".toList = PyVal.none →
        r.symbol = PyVal.none) ∧
      (pyGet d "MARKET".toList = PyVal.none → pyGet d "market".toList = PyVal.none →
        r.market = PyVal.none) ∧
      (pyGet d "TYPE".toList = PyVal.none → pyGet d "type".toList = PyVal.none →
        r.type = PyVal.none) ∧
      r.raw_data = d) := by
  constructor
  · intro h
    match data with
    | PyVal.none => rfl
    | PyVal.int n => rfl
    | PyVal.str s => rfl
    | PyVal.dict es => rfl
    | PyVal.list xs => exact absurd rfl (h xs)
  · intro d r hmk
    have hres3 : ∀ k1 k2 k3 dflt, resolveKeys d [k1, k2, k3] dflt =
        pyOr (pyGet d k1) (pyOr (pyGet d k2) (pyOr (pyGet d k3) dflt)) := by
      intro k1 k2 k3 dflt
      simp [resolveKeys, pyOr]
    have hres2 : ∀ k1 k2 dflt, resolveKeys d [k1, k2] dflt =
        pyOr (pyGet d k1) (pyOr (pyGet d k2) dflt) := by
      intro k1 k2 dflt
      simp [resolveKeys, pyOr]
    rw [mkSearchResult] at hmk
    split at hmk
    · exact absurd hmk (by simp)
    · rename_i idn hid
      injection hmk with hmk'
      rw [← hmk']
      refine ⟨by rw [hres3]; exact hid, by rw [hres2], ?_, ?_, ?_, rfl⟩
      · intro h1 h2
        dsimp only
        rw [h1, h2]
        rfl
      · intro h1 h2
        dsimp only
        rw [h1, h2]
        rfl
      · intro h1 h2
        dsimp only
        rw [h1, h2]
        rfl

theorem c8_witness :
    searchMap (PyVal.int 5) = .ok [] ∧
    pyToInt (resolveKeys [("id_notation".toList, PyVal.int 4039),
        ("NAME".toList, PyVal.str "ASSD".toList)]
      ["ID_NOTATION".toList, "id_notation".toList, "id".toList] (PyVal.int 0)) =
      .ok ( SearchResult.id_notation
        (⟨4039, PyVal.str "ASSD".toList, PyVal.none, PyVal.none, PyVal.none,
          [("id_notation".toList, PyVal.int 4039),
            ("NAME".toList, PyVal.str "ASSD".toList)]⟩ : SearchResult)) :=
  ⟨(c8_key_resolution (PyVal.int 5)).1 (fun xs h => by cases h),
   ((c8_key_resolution PyVal.none).2 [("id_notation".toList, PyVal.int 4039),
      ("NAME".toList, PyVal.str "ASSD".toList)] _ rfl).1⟩

/-- C9: requesting the MAX span produces parameters with the explicit date
pair `DATEINI = 1900-01-01`, `DATEFIN = today` and no `TIME_SPAN`; any
other span produces `TIME_SPAN` with its code and no date pair. -/
theorem c9_max_span_params (idn : Int) (qual : List Char) (vol : Bool)
    (today : PyDate) :
    (paramLook (buildChartParams idn TimeSpan.tMAX qual vol today)
        ("DATEINI".toList) = some (ParamVal.pStr "1900-01-01".toList) ∧
      paramLook (buildChartParams idn TimeSpan.tMAX qual vol today)
        ("DATEFIN".toList) = some (ParamVal.pStr (fmtDate today)) ∧
      paramLook (buildChartParams idn TimeSpan.tMAX qual vol today)
        ("TIME_SPAN".toList) = Option.none) ∧
    (∀ ts : TimeSpan, ts ≠ TimeSpan.tMAX →
      paramLook (buildChartParams idn ts qual vol today)
        ("TIME_SPAN".toList) = some (ParamVal.pStr (spanCode ts)) ∧
      paramLook (buildChartParams idn ts qual vol today)
        ("DATEINI".toList) = Option.none ∧
      paramLook (buildChartParams idn ts qual vol today)
        ("DATEFIN".toList) = Option.none) := by
  constructor
  · exact ⟨rfl, rfl, rfl⟩
  · intro ts h
    cases ts
    case tMAX => exact absurd rfl h
    all_goals exact ⟨rfl, rfl, rfl⟩

theorem c9_witness :
    paramLook (buildChartParams 4039 TimeSpan.t1Y "RLT".toList false
      ⟨2026, 10, 12⟩) ("TIME_SPAN".toList) =
        some (ParamVal.pStr (spanCode TimeSpan.t1Y)) ∧
    paramLook (buildChartParams 4039 TimeSpan.t1Y "RLT".toList false
      ⟨2026, 10, 12⟩) ("DATEINI".toList) = Option.none :=
  ⟨((c9_max_span_params 4039 ("RLT".toList) false ⟨2026, 10, 12⟩).2
      TimeSpan.t1Y (by decide)).1,
   ((c9_max_span_params 4039 ("RLT".toList) false ⟨2026, 10, 12⟩).2
      TimeSpan.t1Y (by decide)).2.1⟩

/-- C10: when a recognized field name matches several times in a fragment,
the leftmost match wins: the first pair whose key ends with the name
provides the extracted value, regardless of later duplicates. -/
theorem c10_first_occurrence_wins (f : List Char) (hf : f ∈ fieldNames)
    (ds : List (List Char)) (fs1 fs2 : List (List Char × List Char))
    (k v : List Char)
    (hg : goodFrag ⟨ds, fs1 ++ (k, v) :: fs2⟩ = true)
    (h1 : ∀ kv ∈ fs1, endsIn f kv.fst = false)
    (hk : endsIn f k = true) :
    searchName f (fragText ⟨ds, fs1 ++ (k, v) :: fs2⟩) = some v ∧
    fieldLook f (fs1 ++ (k, v) :: fs2) = some v := by
  have h2 : fieldLook f (fs1 ++ (k, v) :: fs2) = some v := by
    rw [fieldLook_skip _ h1, fieldLook_cons_true hk]
  refine ⟨?_, h2⟩
  rw [searchName_fragText hf hg]
  exact h2

theorem c10_witness :
    (searchName closeName (fragText ⟨["2025".toList, "0".toList, "21".toList],
        [] ++ (closeName, "1".toList) :: [(closeName, "2".toList)]⟩) =
      some ("1".toList) ∧
    fieldLook closeName ([] ++ (closeName, "1".toList) ::
      [(closeName, "2".toList)]) = some ("1".toList)) ∧
    (parseChart (inputText [⟨["2025".toList, "0".toList, "21".toList],
        [] ++ (closeName, "1".toList) :: [(closeName, "2".toList)]⟩])).map
      (List.map ChartPoint.close) = .ok [1] :=
  ⟨c10_first_occurrence_wins closeName (by decide) _ _ _ _ _
      (by decide) (by decide) (by decide),
   by decide⟩

end Finmarket
